import Mathlib

/-!
Verification of the oneshot pipeline core: the step functions of
`src/index.ts`, the progress-inference and run-guard logic of
`src/server.ts`, and the defensive JSON extraction of step 2.
JavaScript strings are modelled as `List Char` (or Lean `String` where
convenient), `undefined`/`NaN` as `Option`, and thrown exceptions as
`Except`/`Option` results.
-/

namespace OneShot

/-! ## Progress Inference (`detectStatus` in `src/server.ts`)

`detectStatus` lists a project directory and derives the completed step
from which artifact names are present.  We model it as a pure function of
the directory listing (the `fs.existsSync` guard returns step 0 for a
missing directory; the listing-based part below is the function on an
existing directory). -/

/-- `f.endsWith(suf)` on JavaScript strings. -/
def strEndsWith (f suf : String) : Bool :=
  suf.toList.isSuffixOf f.toList

/-- `\d+`: a non-empty run of ASCII digits. -/
def digitsNonempty (l : List Char) : Bool :=
  !l.isEmpty && l.all Char.isDigit

/-- Whether `f` is `pre` ++ digits⁺ ++ `suf`, i.e. matches the anchored
regex `^pre\d+suf$` used by `detectStatus`. -/
def matchesNumberedName (pre suf f : List Char) : Bool :=
  pre.isPrefixOf f &&
    (let rest := f.drop pre.length
     suf.isSuffixOf rest && digitsNonempty (rest.take (rest.length - suf.length)))

/-- The regex test `^keyframe\d+\.jpg$` from `detectStatus`. -/
def isKeyframeJpg (f : String) : Bool :=
  matchesNumberedName "keyframe".toList ".jpg".toList f.toList

/-- The regex test `^segment\d+\.mp4$` from `detectStatus`. -/
def isSegmentMp4 (f : String) : Bool :=
  matchesNumberedName "segment".toList ".mp4".toList f.toList

/-- The artifact filter of `detectStatus`. -/
def isArtifactName (f : String) : Bool :=
  strEndsWith f ".jpg" || strEndsWith f ".mp4" || strEndsWith f ".json" || f == "input.txt"

/-- `detectStatus`: the six sequential presence checks, each overwriting
`completedStep` when its pattern is present, plus the artifact listing. -/
def detectStatus (files : List String) : Nat × List String :=
  let artifacts := files.filter isArtifactName
  let s1 := if files.contains "input.txt" then 1 else 0
  let s2 := if files.contains "script.json" then 2 else s1
  let s3 := if files.contains "character.jpg" then 3 else s2
  let s4 := if files.any isKeyframeJpg then 4 else s3
  let s5 := if files.any isSegmentMp4 then 5 else s4
  let s6 := if files.contains "movie.mp4" || files.contains "output.mp4" then 6 else s5
  (s6, artifacts)

/-- The `completedStep` component of `detectStatus`. -/
def completedStep (files : List String) : Nat := (detectStatus files).1

/-- The defining filename condition of each step, read off `detectStatus`. -/
def stepCond (files : List String) : Nat → Bool
  | 1 => files.contains "input.txt"
  | 2 => files.contains "script.json"
  | 3 => files.contains "character.jpg"
  | 4 => files.any isKeyframeJpg
  | 5 => files.any isSegmentMp4
  | 6 => files.contains "movie.mp4" || files.contains "output.mp4"
  | _ => false

/-- The maximum step index whose defining filename condition holds. -/
def maxSatisfiedStep (files : List String) : Nat :=
  ((List.range 7).filter (stepCond files)).foldr Nat.max 0

theorem completedStep_eq_maxSatisfiedStep (files : List String) :
    completedStep files = maxSatisfiedStep files := by
  have h7 : List.range 7 = [0, 1, 2, 3, 4, 5, 6] := by decide
  simp only [completedStep, detectStatus, maxSatisfiedStep, h7, List.filter_cons,
    List.filter_nil, stepCond]
  cases h1 : files.contains "input.txt" <;>
    cases h2 : files.contains "script.json" <;>
      cases h3 : files.contains "character.jpg" <;>
        cases h4 : files.any isKeyframeJpg <;>
          cases h5 : files.any isSegmentMp4 <;>
            cases h6 : (files.contains "movie.mp4" || files.contains "output.mp4") <;>
              ((try simp only [h1, h2, h3, h4, h5, h6]); decide)

/-- Each condition only looks at membership, so a longer listing satisfies
at least the same conditions. -/
theorem stepCond_mono (files : List String) (f : String) (k : Nat)
    (h : stepCond files k = true) : stepCond (f :: files) k = true := by
  match k with
  | 0 => simp [stepCond] at h
  | 1 | 2 | 3 => simp_all [stepCond, List.contains_cons]
  | 4 | 5 => simp_all [stepCond, List.any_cons]
  | 6 => simp_all [stepCond, List.contains_cons]; tauto
  | n + 7 => simp [stepCond] at h

theorem le_completedStep_of_stepCond (files : List String) (k : Nat)
    (h : stepCond files k = true) : k ≤ completedStep files := by
  match k with
  | 0 => exact Nat.zero_le _
  | 1 | 2 | 3 | 4 | 5 | 6 =>
    simp only [stepCond] at h
    simp only [completedStep, detectStatus]
    split_ifs <;> simp_all
  | n + 7 => simp [stepCond] at h

theorem completedStep_cond (files : List String) :
    completedStep files = 0 ∨ stepCond files (completedStep files) = true := by
  simp only [completedStep, detectStatus]
  split_ifs <;> simp_all [stepCond]

/-- Claim C2: Progress Inference returns `completedStep` equal to the
maximum step index whose defining filename pattern is present (all six
conditions are checked independently), so a listing with `movie.mp4` but
no `script.json` still reports step 6. -/
theorem detectStatus_reports_max_satisfied_step :
    (∀ files : List String, completedStep files = maxSatisfiedStep files) ∧
      completedStep ["movie.mp4"] = 6 :=
  ⟨completedStep_eq_maxSatisfiedStep, by decide⟩

/-- Claim C3: Progress Inference is monotonic in artifact presence —
adding any filename to a directory listing never decreases
`completedStep`. -/
theorem completedStep_monotone (files : List String) (f : String) :
    completedStep files ≤ completedStep (f :: files) := by
  rcases completedStep_cond files with h | h
  · simp [h]
  · exact le_completedStep_of_stepCond _ _ (stepCond_mono _ _ _ h)

/-- Claim C10: any listing containing `output.mp4` reports
`completedStep = 6`, even without `movie.mp4`: the step-6 check is
`files.includes("movie.mp4") || files.includes("output.mp4")`. -/
theorem completedStep_six_of_output_mp4 (files : List String)
    (h : files.contains "output.mp4" = true) : completedStep files = 6 := by
  simp only [completedStep, detectStatus, h, Bool.or_true]
  simp

/-- Witness for C10: the listing `["output.mp4"]` (which lacks
`movie.mp4`) contains `output.mp4` and reports step 6. -/
theorem completedStep_six_of_output_mp4_witness :
    (["output.mp4"] : List String).contains "output.mp4" = true ∧
      completedStep ["output.mp4"] = 6 :=
  ⟨by decide, completedStep_six_of_output_mp4 ["output.mp4"] (by decide)⟩

/-! ## The step-run route (`POST /api/projects/:id/step/:stepNum`)

`src/server.ts` lines 102-152: parse `stepNum` with JavaScript
`parseInt`, reject out-of-range values with 400, reject with 409 when the
`running` map already has the project id, otherwise record the run,
dispatch on the step number (the `switch` has cases 1-6 and falls through
to returning the status for anything else, e.g. `NaN`), and delete the
tracker entry in `finally`.  `NaN` is modelled as `none`. -/

/-- The whitespace characters `parseInt` skips (the common JavaScript
WhiteSpace/LineTerminator code points). -/
def jsWhitespaceChar (c : Char) : Bool :=
  c = ' ' || c = '\t' || c = '\n' || c = '\r' ||
    c = '\x0b' || c = '\x0c' || c = ' ' || c = '﻿'

/-- The value of `c` as a digit in base `radix`, if any. -/
def radixDigitVal (radix : Nat) (c : Char) : Option Nat :=
  let v : Option Nat :=
    if '0' ≤ c ∧ c ≤ '9' then some (c.toNat - '0'.toNat)
    else if 'a' ≤ c ∧ c ≤ 'z' then some (c.toNat - 'a'.toNat + 10)
    else if 'A' ≤ c ∧ c ≤ 'Z' then some (c.toNat - 'A'.toNat + 10)
    else none
  match v with
  | some d => if d < radix then some d else none
  | none => none

/-- JavaScript `parseInt(s)` (radix unspecified, so base 10 with the
`0x`/`0X` hex-prefix rule): skip whitespace, read an optional sign, then
the longest digit prefix; `NaN` (here `none`) when there are no digits. -/
def jsParseInt (s : String) : Option Int :=
  let cs := s.toList.dropWhile jsWhitespaceChar
  let (sign, cs₁) : Int × List Char :=
    match cs with
    | '-' :: t => (-1, t)
    | '+' :: t => (1, t)
    | _ => (1, cs)
  let (radix, cs₂) : Nat × List Char :=
    match cs₁ with
    | '0' :: 'x' :: t => (16, t)
    | '0' :: 'X' :: t => (16, t)
    | _ => (10, cs₁)
  let ds := cs₂.takeWhile (fun c => (radixDigitVal radix c).isSome)
  if ds.isEmpty then none
  else some (sign * (ds.foldl (fun acc c => acc * radix + ((radixDigitVal radix c).getD 0)) 0 : Nat))

/-- `x < k` on JavaScript numbers where `x` may be `NaN` (`none`):
any comparison against `NaN` is false. -/
def nanLt (x : Option Int) (k : Int) : Bool :=
  match x with
  | none => false
  | some v => v < k

/-- `x > k` on JavaScript numbers where `x` may be `NaN`. -/
def nanGt (x : Option Int) (k : Int) : Bool :=
  match x with
  | none => false
  | some v => k < v

/-- The `running` map: project id to the step number being run
(`Map<string, number>`; the number is `none` for `NaN`). -/
abbrev RunMap := List (String × Option Int)

/-- `running.has(id)`. -/
def hasRun (m : RunMap) (id : String) : Bool :=
  List.any m (fun p => p.1 == id)

/-- `running.delete(id)`. -/
def deleteRun (m : RunMap) (id : String) : RunMap :=
  List.filter (fun p => !(p.1 == id)) m

/-- `running.set(id, v)`. -/
def setRun (m : RunMap) (id : String) (v : Option Int) : RunMap :=
  (id, v) :: deleteRun m id

/-- The response status of the route, by HTTP class: `ok` is the 200
`res.json(...)` reply, the others are 400 / 409 / 500. -/
inductive Resp where
  | ok
  | badRequest
  | conflict
  | serverError
deriving DecidableEq, Repr

/-- Outcome of actually executing a step body (the awaited step function
either returns or throws). -/
inductive StepOutcome where
  | success
  | failure
deriving DecidableEq, Repr

/-- The route handler: returns the response, the `running` map after the
handler finishes, and which step function (if any) was invoked.
`description` is the request body's `description` field for step 1. -/
def runStepHandler (running : RunMap) (id : String) (stepParam : String)
    (description : Option String) (outcome : StepOutcome) :
    Resp × RunMap × Option Int :=
  let stepNum := jsParseInt stepParam
  if nanLt stepNum 1 || nanGt stepNum 6 then
    (.badRequest, running, none)
  else if hasRun running id then
    (.conflict, running, none)
  else
    let r₁ := setRun running id stepNum
    let r₂ := deleteRun r₁ id
    match stepNum with
    | some 1 =>
      (match description with
       | none => (.badRequest, r₂, none)
       | some _ => (.ok, r₂, some 1))
    | some k =>
      if 2 ≤ k ∧ k ≤ 6 then
        (match outcome with
         | .success => (.ok, r₂, some k)
         | .failure => (.serverError, r₂, some k))
      else
        (.ok, r₂, none)
    | none => (.ok, r₂, none)

theorem hasRun_deleteRun (m : RunMap) (id : String) :
    hasRun (deleteRun m id) id = false := by
  simp [hasRun, deleteRun, List.any_filter]

/-- Claim C4 (amended): while the run tracker has an entry for a project,
a second request for that project whose `stepNum` passes the range guard
is rejected with 409, runs no step, and leaves the tracker unchanged.
(The guard `stepNum < 1 || stepNum > 6` is checked first, so an
out-of-range `stepNum` is answered 400, not 409 — see the
counterexample.) -/
theorem second_request_conflict (running : RunMap) (id : String)
    (stepParam : String) (description : Option String) (outcome : StepOutcome)
    (hrun : hasRun running id = true)
    (hguard : (nanLt (jsParseInt stepParam) 1 || nanGt (jsParseInt stepParam) 6) = false) :
    runStepHandler running id stepParam description outcome = (.conflict, running, none) := by
  simp [runStepHandler, hguard, hrun]

/-- Witness for C4's theorem at a concrete in-flight state. -/
theorem second_request_conflict_witness :
    hasRun [("p1", some 3)] "p1" = true ∧
      (nanLt (jsParseInt "5") 1 || nanGt (jsParseInt "5") 6) = false ∧
      runStepHandler [("p1", some 3)] "p1" "5" none .success =
        (.conflict, [("p1", some 3)], none) :=
  ⟨by decide, by decide,
    second_request_conflict [("p1", some 3)] "p1" "5" none .success (by decide) (by decide)⟩

/-- Counterexample to C4 as stated: with a step already running for
`"p1"`, a second request with `stepNum = "7"` is answered 400 (the range
guard fires before the conflict check), not 409. -/
theorem second_request_out_of_range_not_conflict :
    runStepHandler [("p1", some 3)] "p1" "7" none .success =
        (.badRequest, [("p1", some 3)], none) ∧
      Resp.badRequest ≠ Resp.conflict := by
  constructor
  · decide
  · decide

/-- The map a step-run request leaves behind is either the input map (a
guard fired) or the map with this id's entry deleted (the `finally`). -/
theorem runStepHandler_map_cases (m : RunMap) (id stepParam : String)
    (description : Option String) (outcome : StepOutcome) :
    (runStepHandler m id stepParam description outcome).2.1 = m ∨
      (runStepHandler m id stepParam description outcome).2.1 =
        deleteRun (setRun m id (jsParseInt stepParam)) id := by
  simp only [runStepHandler]
  split_ifs
  · exact Or.inl rfl
  · exact Or.inl rfl
  · split
    · split <;> exact Or.inr rfl
    · split
      · split <;> exact Or.inr rfl
      · exact Or.inr rfl
    · exact Or.inr rfl

/-- Only the in-flight guard produces a 409. -/
theorem not_conflict_of_not_running (m : RunMap) (id stepParam : String)
    (description : Option String) (outcome : StepOutcome)
    (hrun : hasRun m id = false) :
    (runStepHandler m id stepParam description outcome).1 ≠ .conflict := by
  simp only [runStepHandler]
  split_ifs with h₁ h₂
  · simp
  · rw [hrun] at h₂; exact absurd h₂ (by simp)
  · split
    · split <;> simp
    · split
      · split <;> simp
      · simp
    · simp

/-- Claim C5: whenever the request proceeds past the conflict guard (the
tracker has no entry for this id), the tracker entry created for the run
is removed again before the handler completes — on success, thrown error,
and the step-1 validation failure alike — so a subsequent request for the
project is not rejected with 409. -/
theorem run_tracker_cleared (running : RunMap) (id : String)
    (stepParam : String) (description : Option String) (outcome : StepOutcome)
    (hrun : hasRun running id = false) :
    hasRun (runStepHandler running id stepParam description outcome).2.1 id = false ∧
      ∀ (stepParam' : String) (description' : Option String) (outcome' : StepOutcome),
        (runStepHandler (runStepHandler running id stepParam description outcome).2.1
            id stepParam' description' outcome').1 ≠ .conflict := by
  have hafter : hasRun (runStepHandler running id stepParam description outcome).2.1 id = false := by
    rcases runStepHandler_map_cases running id stepParam description outcome with h | h
    · rw [h]; exact hrun
    · rw [h]; exact hasRun_deleteRun _ _
  exact ⟨hafter, fun stepParam' description' outcome' =>
    not_conflict_of_not_running _ id stepParam' description' outcome' hafter⟩

/-- Witness for C5 at a concrete request. -/
theorem run_tracker_cleared_witness :
    hasRun [] "p1" = false ∧
      (hasRun (runStepHandler [] "p1" "2" none .failure).2.1 "p1" = false ∧
        ∀ (stepParam' : String) (description' : Option String) (outcome' : StepOutcome),
          (runStepHandler (runStepHandler [] "p1" "2" none .failure).2.1
              "p1" stepParam' description' outcome').1 ≠ .conflict) :=
  ⟨by decide, run_tracker_cleared [] "p1" "2" none .failure (by decide)⟩

/-- Claim C6 (amended): a `stepNum` that `parseInt` evaluates to an
integer outside 1..6 is answered 400 with no step executed; but a
non-numeric `stepNum` parses to `NaN`, both guard comparisons are false,
no `switch` case matches, and the route answers 200 with the project
status (see the counterexample). -/
theorem out_of_range_step_rejected (running : RunMap) (id : String)
    (stepParam : String) (description : Option String) (outcome : StepOutcome)
    (n : Int) (hn : jsParseInt stepParam = some n) (hrange : n < 1 ∨ 6 < n) :
    runStepHandler running id stepParam description outcome = (.badRequest, running, none) := by
  have hguard : (nanLt (jsParseInt stepParam) 1 || nanGt (jsParseInt stepParam) 6) = true := by
    rcases hrange with h | h <;> simp [nanLt, nanGt, hn, h]
  simp [runStepHandler, hguard]

/-- Witness for C6's amended theorem at `stepNum = "0"`. -/
theorem out_of_range_step_rejected_witness :
    jsParseInt "0" = some 0 ∧ ((0 : Int) < 1 ∨ (6 : Int) < 0) ∧
      runStepHandler [] "p1" "0" none .success = (.badRequest, [], none) :=
  ⟨by decide, Or.inl (by decide),
    out_of_range_step_rejected [] "p1" "0" none .success 0 (by decide) (Or.inl (by decide))⟩

/-- Counterexample to C6 as stated: `parseInt("abc")` is `NaN`, so both
range comparisons are false, the guard does not fire, no `switch` case
matches, and the handler responds 200 with the status — not 400. -/
theorem non_numeric_step_not_rejected :
    jsParseInt "abc" = none ∧
      runStepHandler [] "p1" "abc" none .success = (.ok, [], none) ∧
      Resp.ok ≠ Resp.badRequest := by
  refine ⟨by decide, by decide, by decide⟩

/-! ## Parsed JSON values

`JSON.parse` results are modelled by `Json`.  Strings are `List Char`
(JavaScript strings); numbers keep their source lexeme, which determines
both their numeric value and truthiness. -/

inductive Json where
  | str (s : List Char)
  | num (lexeme : List Char)
  | bool (b : Bool)
  | null
  | arr (items : List Json)
  | obj (members : List (List Char × Json))

/-- Property access `j[k]` on a parsed object: `undefined` (`none`) off
objects or for a missing key; a duplicate key takes the last value, as
`JSON.parse` assignment order does. -/
def jField : Json → List Char → Option Json
  | .obj kvs, k => kvs.foldl (fun acc p => if p.1 == k then some p.2 else acc) none
  | _, _ => none

/-- Whether a number lexeme denotes zero (all mantissa digits `0`). -/
def jsNumLexemeIsZero (l : List Char) : Bool :=
  let l₁ := match l with | '-' :: t => t | _ => l
  let mant := l₁.takeWhile (fun c => !(c == 'e') && !(c == 'E'))
  mant.all (fun c => c == '0' || c == '.')

/-- JavaScript truthiness of a possibly-`undefined` parsed value:
`undefined`, `null`, `false`, `""` and `0` are falsy. -/
def jsTruthy : Option Json → Bool
  | none => false
  | some .null => false
  | some (.bool b) => b
  | some (.str s) => !s.isEmpty
  | some (.num l) => !jsNumLexemeIsZero l
  | some (.arr _) => true
  | some (.obj _) => true

/-- `Array.isArray` on a possibly-`undefined` value. -/
def isJsonArray : Option Json → Bool
  | some (.arr _) => true
  | _ => false

/-- Length of an array value (only used under an `isJsonArray` guard). -/
def jsonArrLength : Option Json → Nat
  | some (.arr l) => l.length
  | _ => 0

/-! ## Step 2 validation and persistence (`src/index.ts` lines 84-92)

After parsing, step 2 checks that `segments` and `keyframes` are arrays
and `mainCharacterDescription` is truthy, then that
`keyframes.length == segments.length + 1`, throwing a "Re-run step 2"
error otherwise; only when both checks pass does it write `script.json`.
The result below carries the list of files written. -/

def step2Check (script : Json) : Except String (List String) :=
  if !isJsonArray (jField script "segments".toList) ||
      !isJsonArray (jField script "keyframes".toList) ||
      !jsTruthy (jField script "mainCharacterDescription".toList) then
    .error "Invalid script: missing segments, keyframes, or mainCharacterDescription. Re-run step 2."
  else if jsonArrLength (jField script "keyframes".toList) ≠
      jsonArrLength (jField script "segments".toList) + 1 then
    .error "Wrong keyframe count for the segment count. Re-run step 2."
  else
    .ok ["script.json"]

/-- The files a step-2 run persists: none when it throws. -/
def writtenFiles : Except String (List String) → List String
  | .ok l => l
  | .error _ => []

/-- Whether a step-2 run threw. -/
def throwsError : Except String (List String) → Bool
  | .ok _ => false
  | .error _ => true

/-- Claim C1 (amended): step 2 throws — writing nothing — exactly when
`segments` or `keyframes` is not an array, `mainCharacterDescription` is
falsy, or `keyframes.length ≠ segments.length + 1`.  The segment-count
range [3,6] is requested in the prompt but never validated, so a payload
with a consistent keyframe count is persisted even when its segment count
is outside [3,6] (see the counterexample). -/
theorem step2_validation_characterization (script : Json) :
    throwsError (step2Check script) =
        !(isJsonArray (jField script "segments".toList) &&
          isJsonArray (jField script "keyframes".toList) &&
          jsTruthy (jField script "mainCharacterDescription".toList) &&
          (jsonArrLength (jField script "keyframes".toList) ==
            jsonArrLength (jField script "segments".toList) + 1)) ∧
      writtenFiles (step2Check script) =
        (if throwsError (step2Check script) then [] else ["script.json"]) := by
  constructor
  · simp only [step2Check]
    split_ifs with h₁ h₂ <;>
      simp_all [throwsError, beq_iff_eq]
  · simp only [step2Check]
    split_ifs <;> simp_all [writtenFiles, throwsError]

/-- A payload with 2 segments and 3 keyframes: consistent counts, but the
segment count is outside [3,6]. -/
def twoSegmentScript : Json :=
  .obj [("mainCharacterDescription".toList, .str "An astronaut in a worn white suit".toList),
        ("keyframes".toList,
          .arr [.str "opening".toList, .str "midpoint".toList, .str "ending".toList]),
        ("segments".toList,
          .arr [.obj [("script".toList, .str "the astronaut walks".toList)],
                .obj [("script".toList, .str "the astronaut stops".toList)]])]

/-- Counterexample to C1 as stated: this payload's segment count (2) is
outside [3,6], yet step 2 accepts it and writes `script.json`. -/
theorem step2_accepts_out_of_range_segment_count :
    jsonArrLength (jField twoSegmentScript "segments".toList) = 2 ∧
      ¬(3 ≤ 2 ∧ 2 ≤ 6) ∧
      step2Check twoSegmentScript = .ok ["script.json"] := by
  refine ⟨by decide, by decide, by rfl⟩

/-! ## Step 5 fan-out (`src/index.ts` lines 141-162)

`step5` maps over `script.segments` with index `i`, calling
`generateVideo(segment.script, keyframeUrls[i], keyframeUrls[i+1])` and
downloading the result to `segment{i+1}.mp4`.  JavaScript out-of-range
indexing yields `undefined`, modelled with `Option`. -/

structure SegmentRec where
  script : String

/-- The video-generation calls issued by `step5`, in segment order,
starting at index `i`: prompt text and first/last frame URLs. -/
def step5CallsFrom (keyframeUrls : List String) (i : Nat) :
    List SegmentRec → List (String × Option String × Option String)
  | [] => []
  | seg :: rest =>
    (seg.script, keyframeUrls[i]?, keyframeUrls[i + 1]?) ::
      step5CallsFrom keyframeUrls (i + 1) rest

/-- All calls of a `step5` run (`segments.map((segment, i) => ...)`). -/
def step5Calls (segments : List SegmentRec) (keyframeUrls : List String) :
    List (String × Option String × Option String) :=
  step5CallsFrom keyframeUrls 0 segments

/-- The download targets of a `step5` run, in segment order
(`segment${i+1}.mp4`). -/
def step5FilesFrom (i : Nat) : List SegmentRec → List String
  | [] => []
  | _ :: rest => ("segment" ++ toString (i + 1) ++ ".mp4") :: step5FilesFrom (i + 1) rest

def step5Files (segments : List SegmentRec) : List String :=
  step5FilesFrom 0 segments

theorem step5CallsFrom_length (keyframeUrls : List String) :
    ∀ (segments : List SegmentRec) (i : Nat),
      (step5CallsFrom keyframeUrls i segments).length = segments.length
  | [], _ => rfl
  | _ :: rest, i => by
    simp [step5CallsFrom, step5CallsFrom_length keyframeUrls rest (i + 1)]

theorem step5CallsFrom_getElem (keyframeUrls : List String) :
    ∀ (segments : List SegmentRec) (i j : Nat),
      (step5CallsFrom keyframeUrls i segments)[j]? =
        (segments[j]?).map
          (fun seg => (seg.script, keyframeUrls[i + j]?, keyframeUrls[i + j + 1]?))
  | [], _, _ => by simp [step5CallsFrom]
  | seg :: rest, i, 0 => by simp [step5CallsFrom]
  | seg :: rest, i, j + 1 => by
    have ih := step5CallsFrom_getElem keyframeUrls rest (i + 1) j
    simp only [step5CallsFrom, List.getElem?_cons_succ, ih]
    have h1 : i + 1 + j = i + (j + 1) := by omega
    rw [h1]

theorem step5FilesFrom_getElem :
    ∀ (segments : List SegmentRec) (i j : Nat),
      (step5FilesFrom i segments)[j]? =
        (segments[j]?).map (fun _ => "segment" ++ toString (i + j + 1) ++ ".mp4")
  | [], _, _ => by simp [step5FilesFrom]
  | seg :: rest, i, 0 => by simp [step5FilesFrom]
  | seg :: rest, i, j + 1 => by
    have ih := step5FilesFrom_getElem rest (i + 1) j
    simp only [step5FilesFrom, List.getElem?_cons_succ, ih]
    have h1 : i + 1 + j = i + (j + 1) := by omega
    rw [h1]

/-- Claim C8: step 5 issues exactly one video-generation call per
segment; the call at 0-based index `i` uses segment `i`'s script text
with the keyframe URLs at positions `i` and `i+1` as first and last
frame, and the result is stored as `segment{i+1}.mp4`. -/
theorem step5_one_call_per_segment (segments : List SegmentRec)
    (keyframeUrls : List String) :
    (step5Calls segments keyframeUrls).length = segments.length ∧
      (∀ i : Nat, (step5Calls segments keyframeUrls)[i]? =
        (segments[i]?).map
          (fun seg => (seg.script, keyframeUrls[i]?, keyframeUrls[i + 1]?))) ∧
      (∀ i : Nat, (step5Files segments)[i]? =
        (segments[i]?).map (fun _ => "segment" ++ toString (i + 1) ++ ".mp4")) := by
  refine ⟨step5CallsFrom_length keyframeUrls segments 0, fun i => ?_, fun i => ?_⟩
  · have h := step5CallsFrom_getElem keyframeUrls segments 0 i
    simpa using h
  · have h := step5FilesFrom_getElem segments 0 i
    simpa using h

/-! ## A model of `JSON.parse`

Step 2 hands its repaired string to the runtime's `JSON.parse`.  We model
it as a total recursive-descent parser over `List Char` with a fuel
argument (`input length + 1` at the top level, which the round-trip proof
shows is enough for any rendered value). -/

/-- JSON insignificant whitespace. -/
def isJsonWs (c : Char) : Bool :=
  c == ' ' || c == '\t' || c == '\n' || c == '\r'

def skipWs (cs : List Char) : List Char := cs.dropWhile isJsonWs

def hexDigitVal (c : Char) : Option Nat :=
  if '0' ≤ c ∧ c ≤ '9' then some (c.toNat - '0'.toNat)
  else if 'a' ≤ c ∧ c ≤ 'f' then some (c.toNat - 'a'.toNat + 10)
  else if 'A' ≤ c ∧ c ≤ 'F' then some (c.toNat - 'A'.toNat + 10)
  else none

/-- The single-character JSON string escapes. -/
def escapeVal : Char → Option Char
  | '"' => some '"'
  | '\\' => some '\\'
  | '/' => some '/'
  | 'b' => some '\x08'
  | 'f' => some '\x0c'
  | 'n' => some '\n'
  | 'r' => some '\r'
  | 't' => some '\t'
  | _ => none

/-- Parse a JSON string body (after the opening quote), decoding escapes
and rejecting raw control characters, as `JSON.parse` does. -/
def parseJStr : List Char → Option (List Char × List Char)
  | [] => none
  | '"' :: rest => some ([], rest)
  | '\\' :: 'u' :: a :: b :: c :: d :: rest =>
    (match hexDigitVal a, hexDigitVal b, hexDigitVal c, hexDigitVal d with
     | some va, some vb, some vc, some vd =>
       (parseJStr rest).map
         (fun p => (Char.ofNat (((va * 16 + vb) * 16 + vc) * 16 + vd) :: p.1, p.2))
     | _, _, _, _ => none)
  | '\\' :: e :: rest =>
    (match escapeVal e with
     | some ch => (parseJStr rest).map (fun p => (ch :: p.1, p.2))
     | none => none)
  | c :: rest =>
    if c.toNat < 32 then none
    else (parseJStr rest).map (fun p => (c :: p.1, p.2))

def takeDigitsPair (cs : List Char) : List Char × List Char :=
  (cs.takeWhile Char.isDigit, cs.dropWhile Char.isDigit)

/-- The optional fraction part `.digits+` of a JSON number. -/
def parseFracPart (cs : List Char) : Option (List Char × List Char) :=
  match cs with
  | '.' :: t =>
    let p := takeDigitsPair t
    if p.1.isEmpty then none else some ('.' :: p.1, p.2)
  | _ => some ([], cs)

/-- The optional exponent part `(e|E)(+|-)?digits+` of a JSON number. -/
def parseExpPart (cs : List Char) : Option (List Char × List Char) :=
  match cs with
  | 'e' :: t =>
    let (sgn, t₁) : List Char × List Char :=
      match t with
      | '+' :: r => (['+'], r)
      | '-' :: r => (['-'], r)
      | _ => ([], t)
    let p := takeDigitsPair t₁
    if p.1.isEmpty then none else some ('e' :: (sgn ++ p.1), p.2)
  | 'E' :: t =>
    let (sgn, t₁) : List Char × List Char :=
      match t with
      | '+' :: r => (['+'], r)
      | '-' :: r => (['-'], r)
      | _ => ([], t)
    let p := takeDigitsPair t₁
    if p.1.isEmpty then none else some ('E' :: (sgn ++ p.1), p.2)
  | _ => some ([], cs)

/-- The rest of a number whose integer part is a lone `0`. -/
def numZeroTail (sgn t : List Char) : Option (List Char × List Char) :=
  match parseFracPart t with
  | some (fr, t₁) =>
    (match parseExpPart t₁ with
     | some (ex, t₂) => some (sgn ++ '0' :: (fr ++ ex), t₂)
     | none => none)
  | none => none

/-- The rest of a number whose integer part starts with the non-zero
digit `c`. -/
def numDigTail (sgn : List Char) (c : Char) (t : List Char) :
    Option (List Char × List Char) :=
  let p := takeDigitsPair t
  match parseFracPart p.2 with
  | some (fr, t₁) =>
    (match parseExpPart t₁ with
     | some (ex, t₂) => some (sgn ++ c :: (p.1 ++ (fr ++ ex)), t₂)
     | none => none)
  | none => none

/-- Parse a JSON number, returning its lexeme (grammar
`-?(0|[1-9][0-9]*)(.[0-9]+)?([eE][+-]?[0-9]+)?`). -/
def parseNumLex (cs : List Char) : Option (List Char × List Char) :=
  match cs with
  | [] => none
  | c :: t =>
    if c = '-' then
      match t with
      | [] => none
      | c₁ :: t₁ =>
        if c₁ = '0' then numZeroTail ['-'] t₁
        else if c₁.isDigit then numDigTail ['-'] c₁ t₁
        else none
    else if c = '0' then numZeroTail [] t
    else if c.isDigit then numDigTail [] c t
    else none

mutual

def parseVal : Nat → List Char → Option (Json × List Char)
  | 0, _ => none
  | fuel + 1, cs =>
    match skipWs cs with
    | [] => none
    | c :: r =>
      if c = '{' then
        match skipWs r with
        | [] => none
        | c₂ :: r₂ =>
          if c₂ = '}' then some (.obj [], r₂)
          else (parseFields fuel (c₂ :: r₂)).map (fun p => (.obj p.1, p.2))
      else if c = '[' then
        match skipWs r with
        | [] => none
        | c₂ :: r₂ =>
          if c₂ = ']' then some (.arr [], r₂)
          else (parseItems fuel (c₂ :: r₂)).map (fun p => (.arr p.1, p.2))
      else if c = '"' then (parseJStr r).map (fun p => (.str p.1, p.2))
      else if c = 't' then
        match r with
        | 'r' :: 'u' :: 'e' :: r₂ => some (.bool true, r₂)
        | _ => none
      else if c = 'f' then
        match r with
        | 'a' :: 'l' :: 's' :: 'e' :: r₂ => some (.bool false, r₂)
        | _ => none
      else if c = 'n' then
        match r with
        | 'u' :: 'l' :: 'l' :: r₂ => some (.null, r₂)
        | _ => none
      else (parseNumLex (c :: r)).map (fun p => (.num p.1, p.2))

/-- One-or-more comma-separated array items up to `]`. -/
def parseItems : Nat → List Char → Option (List Json × List Char)
  | 0, _ => none
  | fuel + 1, cs =>
    match parseVal fuel cs with
    | some (v, r) =>
      (match skipWs r with
       | [] => none
       | c₂ :: r₂ =>
         if c₂ = ',' then (parseItems fuel r₂).map (fun p => (v :: p.1, p.2))
         else if c₂ = ']' then some ([v], r₂)
         else none)
    | none => none

/-- One-or-more comma-separated object members up to `}`. -/
def parseFields : Nat → List Char → Option (List (List Char × Json) × List Char)
  | 0, _ => none
  | fuel + 1, cs =>
    match skipWs cs with
    | [] => none
    | c :: r =>
      if c = '"' then
        match parseJStr r with
        | some (k, r₁) =>
          (match skipWs r₁ with
           | [] => none
           | c₂ :: r₂ =>
             if c₂ = ':' then
               match parseVal fuel r₂ with
               | some (v, r₃) =>
                 (match skipWs r₃ with
                  | [] => none
                  | c₃ :: r₄ =>
                    if c₃ = ',' then
                      (parseFields fuel r₄).map (fun p => ((k, v) :: p.1, p.2))
                    else if c₃ = '}' then some ([(k, v)], r₄)
                    else none)
               | none => none
             else none)
        | none => none
      else none

end

/-- `JSON.parse`: a complete document is one value with only whitespace
around it. -/
def parseTop (cs : List Char) : Option Json :=
  match parseVal (cs.length + 1) cs with
  | some (v, r) => if (skipWs r).isEmpty then some v else none
  | none => none

/-! ## The step-2 extraction/repair pipeline (`src/index.ts` lines 64-82)

`step2` slices the response from the first `{` to the last `}`, removes
trailing commas before `}`/`]` (`/,\s*([}\]])/g` → `$1`), escapes raw
control characters found inside `: "..."` string values
(`/(?<=: *")((?:[^"\\]|\\.)*)(?=")/g` with `\n`, `\r`, `\t` replaced by
their escapes), and parses; on failure it replaces every control
character by a space (`/[\x00-\x1f]/g` → `" "`) and parses once more. -/

/-- `\s` of the JavaScript regexes used here (common code points). -/
def isJsRegexSpace (c : Char) : Bool :=
  c == ' ' || c == '\t' || c == '\n' || c == '\r' ||
    c == '\x0b' || c == '\x0c' || c == ' ' || c == '﻿'

theorem dropWhileLenLe (p : Char → Bool) (l : List Char) :
    (l.dropWhile p).length ≤ l.length :=
  (List.dropWhile_sublist _).length_le

theorem dropWhileConsLt {p : Char → Bool} {t r : List Char} {b c : Char}
    (hd : t.dropWhile p = b :: r) : r.length < (c :: t).length := by
  have hle := dropWhileLenLe p t
  rw [hd] at hle
  simp at hle ⊢
  omega

/-- The global replace `/,\s*([}\]])/g` → `"$1"`, on fuel (one unit per
emitted character; `stripTrailingCommas` supplies the input length, which
the irrelevance lemma below shows is enough): a comma, optional
whitespace, then a closing bracket collapses to the bracket; scanning
resumes after the bracket, and a comma that matches nothing is kept
(the regex engine then advances one position). -/
def stcFuel : Nat → List Char → List Char
  | 0, l => l
  | _ + 1, [] => []
  | fuel + 1, c :: rest =>
    if c = ',' then
      match rest.dropWhile isJsRegexSpace with
      | '}' :: r => '}' :: stcFuel fuel r
      | ']' :: r => ']' :: stcFuel fuel r
      | _ => ',' :: stcFuel fuel rest
    else c :: stcFuel fuel rest

def stripTrailingCommas (l : List Char) : List Char :=
  stcFuel l.length l

theorem stcFuel_nil : ∀ fuel, stcFuel fuel [] = []
  | 0 => rfl
  | _ + 1 => rfl

theorem stcFuel_irrel : ∀ (fuel₁ fuel₂ : Nat) (l : List Char),
    l.length ≤ fuel₁ → l.length ≤ fuel₂ → stcFuel fuel₁ l = stcFuel fuel₂ l
  | 0, fuel₂, l, h₁, _ => by
    have : l = [] := by
      cases l with
      | nil => rfl
      | cons c t => simp at h₁
    subst this
    rw [stcFuel_nil, stcFuel_nil]
  | fuel₁ + 1, fuel₂, l, h₁, h₂ => by
    cases l with
    | nil => rw [stcFuel_nil, stcFuel_nil]
    | cons c rest =>
      cases fuel₂ with
      | zero => simp at h₂
      | succ f₂ =>
        simp only [List.length_cons] at h₁ h₂
        have hr : rest.length ≤ fuel₁ := by omega
        have hr₂ : rest.length ≤ f₂ := by omega
        have hre := stcFuel_irrel fuel₁ f₂ rest hr hr₂
        simp only [stcFuel]
        cases hd : rest.dropWhile isJsRegexSpace with
        | nil => simp [hre]
        | cons x r =>
          have hxr : r.length ≤ rest.length := by
            have hle := dropWhileLenLe isJsRegexSpace rest
            rw [hd] at hle
            simp at hle
            omega
          have hrr := stcFuel_irrel fuel₁ f₂ r (by omega) (by omega)
          by_cases hx1 : x = '}'
          · subst hx1
            simp [hre, hrr]
          · by_cases hx2 : x = ']'
            · subst hx2
              simp [hre, hrr]
            · simp [hx1, hx2, hre, hrr]

/-- The one-step unfolding of `stripTrailingCommas`. -/
theorem stc_step_eq (c : Char) (rest : List Char) :
    stripTrailingCommas (c :: rest) =
      (if c = ',' then
        match rest.dropWhile isJsRegexSpace with
        | '}' :: r => '}' :: stripTrailingCommas r
        | ']' :: r => ']' :: stripTrailingCommas r
        | _ => ',' :: stripTrailingCommas rest
      else c :: stripTrailingCommas rest) := by
  show stcFuel (rest.length + 1) (c :: rest) = _
  simp only [stcFuel]
  cases hd : rest.dropWhile isJsRegexSpace with
  | nil => rfl
  | cons x r =>
    have hxr : r.length ≤ rest.length := by
      have hle := dropWhileLenLe isJsRegexSpace rest
      rw [hd] at hle
      simp at hle
      omega
    have hrr : stcFuel rest.length r = stripTrailingCommas r :=
      stcFuel_irrel rest.length r.length r (by omega) (by omega)
    by_cases hx1 : x = '}'
    · subst hx1
      simp [hrr]
      rfl
    · by_cases hx2 : x = ']'
      · subst hx2
        simp [hrr]
        rfl
      · simp [hx1, hx2]
        rfl

/-- The span `((?:[^"\\]|\\.)*)(?=")` after an opening quote: the matched
region (backslash pairs kept verbatim) and the rest beginning at the
closing quote; `none` when the lookahead quote is never reached (then the
regex makes no match here). -/
def ctlValueSpan : List Char → Option (List Char × List Char)
  | [] => none
  | '"' :: rest => some ([], '"' :: rest)
  | '\\' :: c :: rest =>
    if c = '\n' then none
    else (ctlValueSpan rest).map (fun p => ('\\' :: c :: p.1, p.2))
  | ['\\'] => none
  | c :: rest => (ctlValueSpan rest).map (fun p => (c :: p.1, p.2))

theorem ctlValueSpan_append :
    ∀ (cs r t : List Char), ctlValueSpan cs = some (r, t) → r ++ t = cs := by
  intro cs
  induction cs using ctlValueSpan.induct with
  | case1 => intro r t h; simp [ctlValueSpan] at h
  | case2 rest =>
    intro r t h
    simp [ctlValueSpan] at h
    simp [← h.1, ← h.2]
  | case3 rest => intro r t h; simp [ctlValueSpan] at h
  | case4 c rest hne ih =>
    intro r t h
    simp [ctlValueSpan, hne] at h
    obtain ⟨a, hs, rfl⟩ := h
    simp [ih a t hs]
  | case5 => intro r t h; simp [ctlValueSpan] at h
  | case6 c rest h1 h2 h3 ih =>
    intro r t h
    simp [ctlValueSpan, h1, h2, h3] at h
    obtain ⟨a, hs, rfl⟩ := h
    simp [ih a t hs]

theorem ctlSpanConsLt {t r₂ region rt : List Char} {c : Char}
    (hd : t.dropWhile (fun x => x == ' ') = '"' :: r₂)
    (hv : ctlValueSpan r₂ = some (region, rt)) : rt.length < (c :: t).length := by
  have h₁ := dropWhileLenLe (fun x => x == ' ') t
  rw [hd] at h₁
  have h₂ := ctlValueSpan_append _ _ _ hv
  have h₃ : rt.length ≤ r₂.length := by
    rw [← h₂]
    simp
  simp at h₁ ⊢
  omega

/-- The replacement callback: a raw `\n`, `\r` or `\t` becomes its
two-character escape; everything else is kept. -/
def escapeCtlChar (c : Char) : List Char :=
  if c = '\n' then ['\\', 'n']
  else if c = '\r' then ['\\', 'r']
  else if c = '\t' then ['\\', 't']
  else [c]

/-- The global replace over `(?<=: *")((?:[^"\\]|\\.)*)(?=")`, on fuel
(the wrapper supplies the input length): find a colon, then spaces, then
a quote; escape the control characters of the value span; resume scanning
at the closing quote. -/
def escCtlFuel : Nat → List Char → List Char
  | 0, l => l
  | _ + 1, [] => []
  | fuel + 1, c :: rest =>
    if c = ':' then
      match rest.dropWhile (fun x => x == ' ') with
      | x :: r₂ =>
        if x = '"' then
          (match ctlValueSpan r₂ with
           | some (region, t) =>
             ':' :: (rest.takeWhile (fun x => x == ' ') ++
               ('"' :: (region.flatMap escapeCtlChar ++ escCtlFuel fuel t)))
           | none => ':' :: escCtlFuel fuel rest)
        else ':' :: escCtlFuel fuel rest
      | [] => ':' :: escCtlFuel fuel rest
    else c :: escCtlFuel fuel rest

def escapeCtlInStrings (l : List Char) : List Char :=
  escCtlFuel l.length l

/-- The last-resort `/[\x00-\x1f]/g` → `" "`. -/
def stripCtlChars (cs : List Char) : List Char :=
  cs.map (fun c => if c.toNat < 32 then ' ' else c)

def firstIdxOf (c : Char) (cs : List Char) : Option Nat :=
  cs.findIdx? (fun x => x == c)

def lastIdxOf (c : Char) (cs : List Char) : Option Nat :=
  (cs.reverse.findIdx? (fun x => x == c)).map (fun k => cs.length - 1 - k)

/-- The whole extraction/repair/parse sequence of step 2 on the raw
text-generation response. -/
def step2ParseScript (raw : List Char) : Except String Json :=
  match firstIdxOf '{' raw, lastIdxOf '}' raw with
  | some s, some e =>
    let jsonStr := (raw.take (e + 1)).drop s
    let jsonStr₁ := stripTrailingCommas jsonStr
    let jsonStr₂ := escapeCtlInStrings jsonStr₁
    (match parseTop jsonStr₂ with
     | some j => .ok j
     | none =>
       (match parseTop (stripCtlChars jsonStr₂) with
        | some j => .ok j
        | none => .error "SyntaxError: JSON.parse"))
  | _, _ => .error "Failed to parse script from response"

/-! ## Well-formed script values and their renderings

The claim's "valid JSON script object wrapped in prose with a trailing
comma" is formalised as: a `Json` value whose strings are plain prose
(`safeChar`), rendered canonically (`render`) or with a trailing comma
inserted before every closing bracket of a non-empty array/object
(`renderT`), embedded between prose fragments. -/

/-- Characters allowed in modelled script strings: printable (no raw
control characters), and none of quote, backslash, braces or brackets,
so string content cannot collide with the repair regexes' patterns. -/
def safeChar (c : Char) : Bool :=
  32 ≤ c.toNat && !(c == '"') && !(c == '\\') &&
    !(c == '{') && !(c == '}') && !(c == '[') && !(c == ']')

/-- Well-formed number lexemes (integer form, no leading zero). -/
def numLexWf (l : List Char) : Bool :=
  match l with
  | ['0'] => true
  | c :: t => c.isDigit && !(c == '0') && t.all Char.isDigit
  | [] => false

mutual

def jsonWf : Json → Bool
  | .str s => s.all safeChar
  | .num l => numLexWf l
  | .bool _ => true
  | .null => true
  | .arr items => itemsWf items
  | .obj members => membersWf members

def itemsWf : List Json → Bool
  | [] => true
  | v :: vs => jsonWf v && itemsWf vs

def membersWf : List (List Char × Json) → Bool
  | [] => true
  | (k, v) :: tl => k.all safeChar && jsonWf v && membersWf tl

end

mutual

/-- Canonical rendering: no whitespace, strings verbatim (safe strings
need no escaping), members as `"key":value` separated by commas. -/
def render : Json → List Char
  | .str s => '"' :: (s ++ ['"'])
  | .num l => l
  | .bool true => ['t', 'r', 'u', 'e']
  | .bool false => ['f', 'a', 'l', 's', 'e']
  | .null => ['n', 'u', 'l', 'l']
  | .arr [] => ['[', ']']
  | .arr (v :: vs) => '[' :: (render v ++ (renderItemsTail vs ++ [']']))
  | .obj [] => ['{', '}']
  | .obj ((k, v) :: tl) =>
    '{' :: ('"' :: (k ++ ('"' :: ':' :: (render v ++ (renderMembersTail tl ++ ['}'])))))

def renderItemsTail : List Json → List Char
  | [] => []
  | v :: vs => ',' :: (render v ++ renderItemsTail vs)

def renderMembersTail : List (List Char × Json) → List Char
  | [] => []
  | (k, v) :: tl => ',' :: ('"' :: (k ++ ('"' :: ':' :: (render v ++ renderMembersTail tl))))

end

mutual

/-- Like `render`, but with a trailing comma inserted before the closing
bracket of every non-empty array and object. -/
def renderT : Json → List Char
  | .str s => '"' :: (s ++ ['"'])
  | .num l => l
  | .bool true => ['t', 'r', 'u', 'e']
  | .bool false => ['f', 'a', 'l', 's', 'e']
  | .null => ['n', 'u', 'l', 'l']
  | .arr [] => ['[', ']']
  | .arr (v :: vs) => '[' :: (renderT v ++ (renderTItemsTail vs ++ [',', ']']))
  | .obj [] => ['{', '}']
  | .obj ((k, v) :: tl) =>
    '{' :: ('"' :: (k ++ ('"' :: ':' :: (renderT v ++ (renderTMembersTail tl ++ [',', '}'])))))

def renderTItemsTail : List Json → List Char
  | [] => []
  | v :: vs => ',' :: (renderT v ++ renderTItemsTail vs)

def renderTMembersTail : List (List Char × Json) → List Char
  | [] => []
  | (k, v) :: tl => ',' :: ('"' :: (k ++ ('"' :: ':' :: (renderT v ++ renderTMembersTail tl))))

end

/-! ## Round-trip lemmas: strings, digits, numbers -/

theorem safeChar_facts {c : Char} (h : safeChar c = true) :
    32 ≤ c.toNat ∧ c ≠ '"' ∧ c ≠ '\\' ∧ c ≠ '{' ∧ c ≠ '}' ∧ c ≠ '[' ∧ c ≠ ']' := by
  simp [safeChar] at h
  tauto

theorem parseJStr_safe :
    ∀ (s rest : List Char), s.all safeChar = true →
      parseJStr (s ++ '"' :: rest) = some (s, rest)
  | [], rest, _ => by simp [parseJStr]
  | c :: s, rest, h => by
    simp only [List.all_cons, Bool.and_eq_true] at h
    obtain ⟨h32, hq, hb, -, -, -, -⟩ := safeChar_facts h.1
    have ih := parseJStr_safe s rest h.2
    have h32' : ¬c.toNat < 32 := by omega
    simp [parseJStr, hq, hb, h32', ih, List.cons_append]

theorem takeDigitsPair_exact :
    ∀ (t rest : List Char), t.all Char.isDigit = true →
      (∀ c, rest.head? = some c → c.isDigit = false) →
      takeDigitsPair (t ++ rest) = (t, rest)
  | [], rest, _, hrest => by
    cases rest with
    | nil => simp [takeDigitsPair]
    | cons c r =>
      have := hrest c rfl
      simp [takeDigitsPair, List.takeWhile, List.dropWhile, this]
  | c :: t, rest, h, hrest => by
    simp only [List.all_cons, Bool.and_eq_true] at h
    have ih := takeDigitsPair_exact t rest h.2 hrest
    have h1 := congrArg Prod.fst ih
    have h2 := congrArg Prod.snd ih
    simp only [takeDigitsPair] at h1 h2
    simp [takeDigitsPair, List.takeWhile_cons, List.dropWhile_cons, h.1, h1, h2]

theorem parseFracPart_stop (rest : List Char)
    (h : ∀ c, rest.head? = some c → c ≠ '.') :
    parseFracPart rest = some ([], rest) := by
  cases rest with
  | nil => rfl
  | cons c r =>
    have := h c rfl
    rw [parseFracPart.eq_def]
    split
    · simp_all
    · rfl

theorem parseExpPart_stop (rest : List Char)
    (h : ∀ c, rest.head? = some c → c ≠ 'e' ∧ c ≠ 'E') :
    parseExpPart rest = some ([], rest) := by
  cases rest with
  | nil => rfl
  | cons c r =>
    have := h c rfl
    rw [parseExpPart.eq_def]
    split
    · simp_all
    · simp_all
    · rfl

/-- What may legally follow a rendered value in our composites: nothing,
or a separator / closing bracket. -/
def restSep (rest : List Char) : Bool :=
  match rest with
  | [] => true
  | c :: _ => c == ',' || c == '}' || c == ']'

theorem restSep_facts {rest : List Char} (h : restSep rest = true) :
    ∀ c, rest.head? = some c → c = ',' ∨ c = '}' ∨ c = ']' := by
  cases rest with
  | nil => simp
  | cons c r =>
    intro x hx
    injection hx with hx
    subst hx
    simp [restSep] at h
    tauto

theorem parseNumLex_wf (l rest : List Char) (hwf : numLexWf l = true)
    (hsep : restSep rest = true) :
    parseNumLex (l ++ rest) = some (l, rest) := by
  have hnd : ∀ c, rest.head? = some c → c.isDigit = false := by
    intro c hc
    rcases restSep_facts hsep c hc with rfl | rfl | rfl <;> decide
  have hfr : parseFracPart rest = some ([], rest) := by
    apply parseFracPart_stop
    intro c hc
    rcases restSep_facts hsep c hc with rfl | rfl | rfl <;> decide
  have hex : parseExpPart rest = some ([], rest) := by
    apply parseExpPart_stop
    intro c hc
    rcases restSep_facts hsep c hc with rfl | rfl | rfl <;> decide
  rw [numLexWf.eq_def] at hwf
  split at hwf
  · -- l = ['0']
    simp only [List.cons_append, List.nil_append, parseNumLex]
    simp [numZeroTail, hfr, hex]
  · -- l = c :: t with c a non-zero digit, t digits
    rename_i c t hne
    simp only [Bool.and_eq_true] at hwf
    obtain ⟨⟨hd, hz⟩, ht⟩ := hwf
    have hc0 : ¬c = '0' := by simpa using hz
    have hcm : ¬c = '-' := by
      intro hcc
      subst hcc
      simp [Char.isDigit] at hd
    have htd := takeDigitsPair_exact t rest ht hnd
    simp only [List.cons_append, parseNumLex]
    rw [if_neg hcm, if_neg hc0, if_pos hd]
    simp [numDigTail, htd, hfr, hex]
  · simp at hwf

/-! ## Head shapes of rendered values -/

theorem charNeOfDigit {c x : Char} (h : c.isDigit = true)
    (hx : x.isDigit = false) : c ≠ x := by
  intro hc
  rw [hc] at h
  rw [h] at hx
  exact Bool.noConfusion hx

theorem digitNotStart {c : Char} (h : c.isDigit = true) :
    isJsonWs c = false ∧ c ≠ '{' ∧ c ≠ '[' ∧ c ≠ '"' ∧ c ≠ 't' ∧ c ≠ 'f' ∧
      c ≠ 'n' ∧ c ≠ ']' ∧ c ≠ '}' ∧ isJsRegexSpace c = false ∧ c ≠ ',' := by
  refine ⟨?_, charNeOfDigit h (by decide), charNeOfDigit h (by decide),
    charNeOfDigit h (by decide), charNeOfDigit h (by decide),
    charNeOfDigit h (by decide), charNeOfDigit h (by decide),
    charNeOfDigit h (by decide), charNeOfDigit h (by decide), ?_,
    charNeOfDigit h (by decide)⟩
  · simp only [isJsonWs, Bool.or_eq_false_iff, beq_eq_false_iff_ne]
    exact ⟨⟨⟨charNeOfDigit h (by decide), charNeOfDigit h (by decide)⟩,
      charNeOfDigit h (by decide)⟩, charNeOfDigit h (by decide)⟩
  · simp only [isJsRegexSpace, Bool.or_eq_false_iff, beq_eq_false_iff_ne]
    exact ⟨⟨⟨⟨⟨⟨⟨charNeOfDigit h (by decide), charNeOfDigit h (by decide)⟩,
      charNeOfDigit h (by decide)⟩, charNeOfDigit h (by decide)⟩,
      charNeOfDigit h (by decide)⟩, charNeOfDigit h (by decide)⟩,
      charNeOfDigit h (by decide)⟩, charNeOfDigit h (by decide)⟩

theorem numLexWf_head {l : List Char} (h : numLexWf l = true) :
    ∃ c t, l = c :: t ∧ c.isDigit = true := by
  rw [numLexWf.eq_def] at h
  split at h
  · exact ⟨'0', [], rfl, by decide⟩
  · rename_i c t hne
    simp only [Bool.and_eq_true] at h
    exact ⟨c, t, rfl, h.1.1⟩
  · simp at h

/-- The head character of each rendered shape, with the disequalities the
parser and the repair passes need. -/
theorem render_head (v : Json) (hwf : jsonWf v = true) :
    ∃ c t, render v = c :: t ∧ isJsonWs c = false ∧ c ≠ ']' ∧ c ≠ '}' ∧
      isJsRegexSpace c = false ∧ c ≠ ',' := by
  cases v with
  | str s => exact ⟨'"', _, rfl, by decide, by decide, by decide, by decide, by decide⟩
  | num l =>
    have hwf' : numLexWf l = true := by simpa [jsonWf] using hwf
    obtain ⟨c, t, rfl, hcd⟩ := numLexWf_head hwf'
    obtain ⟨hws, -, -, -, -, -, -, h8, h9, h10, h11⟩ := digitNotStart hcd
    exact ⟨c, t, rfl, hws, h8, h9, h10, h11⟩
  | bool b =>
    cases b with
    | true => exact ⟨'t', _, rfl, by decide, by decide, by decide, by decide, by decide⟩
    | false => exact ⟨'f', _, rfl, by decide, by decide, by decide, by decide, by decide⟩
  | null => exact ⟨'n', _, rfl, by decide, by decide, by decide, by decide, by decide⟩
  | arr items =>
    cases items with
    | nil => exact ⟨'[', _, rfl, by decide, by decide, by decide, by decide, by decide⟩
    | cons v vs => exact ⟨'[', _, rfl, by decide, by decide, by decide, by decide, by decide⟩
  | obj members =>
    cases members with
    | nil => exact ⟨'{', _, rfl, by decide, by decide, by decide, by decide, by decide⟩
    | cons kv tl =>
      obtain ⟨k, v⟩ := kv
      exact ⟨'{', _, rfl, by decide, by decide, by decide, by decide, by decide⟩

theorem renderT_head (v : Json) (hwf : jsonWf v = true) :
    ∃ c t, renderT v = c :: t ∧ isJsonWs c = false ∧ c ≠ ']' ∧ c ≠ '}' ∧
      isJsRegexSpace c = false ∧ c ≠ ',' := by
  cases v with
  | str s => exact ⟨'"', _, rfl, by decide, by decide, by decide, by decide, by decide⟩
  | num l =>
    have hwf' : numLexWf l = true := by simpa [jsonWf] using hwf
    obtain ⟨c, t, rfl, hcd⟩ := numLexWf_head hwf'
    obtain ⟨hws, -, -, -, -, -, -, h8, h9, h10, h11⟩ := digitNotStart hcd
    exact ⟨c, t, rfl, hws, h8, h9, h10, h11⟩
  | bool b =>
    cases b with
    | true => exact ⟨'t', _, rfl, by decide, by decide, by decide, by decide, by decide⟩
    | false => exact ⟨'f', _, rfl, by decide, by decide, by decide, by decide, by decide⟩
  | null => exact ⟨'n', _, rfl, by decide, by decide, by decide, by decide, by decide⟩
  | arr items =>
    cases items with
    | nil => exact ⟨'[', _, rfl, by decide, by decide, by decide, by decide, by decide⟩
    | cons v vs => exact ⟨'[', _, rfl, by decide, by decide, by decide, by decide, by decide⟩
  | obj members =>
    cases members with
    | nil => exact ⟨'{', _, rfl, by decide, by decide, by decide, by decide, by decide⟩
    | cons kv tl =>
      obtain ⟨k, v⟩ := kv
      exact ⟨'{', _, rfl, by decide, by decide, by decide, by decide, by decide⟩

theorem skipWs_render (v : Json) (hwf : jsonWf v = true) (x : List Char) :
    skipWs (render v ++ x) = render v ++ x := by
  obtain ⟨c, t, hr, hws, -, -, -, -⟩ := render_head v hwf
  rw [hr, List.cons_append]
  simp [skipWs, List.dropWhile_cons, hws]

/-- A value whose input starts with none of the structural characters or
keyword heads is parsed as a number. -/
theorem parseVal_num_arm (f : Nat) (c : Char) (t : List Char)
    (hws : isJsonWs c = false) (h1 : c ≠ '{') (h2 : c ≠ '[') (h3 : c ≠ '"')
    (h4 : c ≠ 't') (h5 : c ≠ 'f') (h6 : c ≠ 'n') :
    parseVal (f + 1) (c :: t) =
      (parseNumLex (c :: t)).map (fun p => (.num p.1, p.2)) := by
  rw [parseVal]
  rw [show skipWs (c :: t) = c :: t from by simp [skipWs, List.dropWhile_cons, hws]]
  split <;> first | rfl | simp_all

theorem skipWs_not_ws {c : Char} (h : isJsonWs c = false) (t : List Char) :
    skipWs (c :: t) = c :: t := by
  simp [skipWs, List.dropWhile_cons, h]

/-! ## The parser round-trip on rendered values -/

mutual

theorem rtVal : ∀ (v : Json) (fuel : Nat) (rest : List Char),
    jsonWf v = true → (render v).length < fuel → restSep rest = true →
    parseVal fuel (render v ++ rest) = some (v, rest)
  | .str s, fuel, rest, hwf, hf, _ => by
    cases fuel with
    | zero => exact absurd hf (Nat.not_lt_zero _)
    | succ f =>
      have hs : s.all safeChar = true := by simpa [jsonWf] using hwf
      have harg : render (.str s) ++ rest = '"' :: (s ++ '"' :: rest) := by
        simp [render]
      rw [harg, parseVal, skipWs_not_ws (by decide)]
      simp [parseJStr_safe s rest hs]
  | .num l, fuel, rest, hwf, hf, hsep => by
    cases fuel with
    | zero => exact absurd hf (Nat.not_lt_zero _)
    | succ f =>
      have hwf' : numLexWf l = true := by simpa [jsonWf] using hwf
      obtain ⟨c, t, hl, hcd⟩ := numLexWf_head hwf'
      obtain ⟨hws, h1, h2, h3, h4, h5, h6, -, -, -, -⟩ := digitNotStart hcd
      have harg : render (.num l) ++ rest = c :: (t ++ rest) := by
        simp [render, hl]
      rw [harg, parseVal_num_arm f c (t ++ rest) hws h1 h2 h3 h4 h5 h6]
      have hnum := parseNumLex_wf l rest hwf' hsep
      rw [hl] at hnum
      rw [show c :: (t ++ rest) = (c :: t) ++ rest from rfl, hnum]
      simp [hl]
  | .bool true, fuel, rest, _, hf, _ => by
    cases fuel with
    | zero => exact absurd hf (Nat.not_lt_zero _)
    | succ f =>
      have harg : render (.bool true) ++ rest = 't' :: ('r' :: 'u' :: 'e' :: rest) := by
        simp [render]
      rw [harg, parseVal, skipWs_not_ws (by decide)]
      simp
  | .bool false, fuel, rest, _, hf, _ => by
    cases fuel with
    | zero => exact absurd hf (Nat.not_lt_zero _)
    | succ f =>
      have harg : render (.bool false) ++ rest = 'f' :: ('a' :: 'l' :: 's' :: 'e' :: rest) := by
        simp [render]
      rw [harg, parseVal, skipWs_not_ws (by decide)]
      simp
  | .null, fuel, rest, _, hf, _ => by
    cases fuel with
    | zero => exact absurd hf (Nat.not_lt_zero _)
    | succ f =>
      have harg : render .null ++ rest = 'n' :: ('u' :: 'l' :: 'l' :: rest) := by
        simp [render]
      rw [harg, parseVal, skipWs_not_ws (by decide)]
      simp
  | .arr [], fuel, rest, _, hf, _ => by
    cases fuel with
    | zero => exact absurd hf (Nat.not_lt_zero _)
    | succ f =>
      have harg : render (.arr []) ++ rest = '[' :: (']' :: rest) := by
        simp [render]
      rw [harg, parseVal]
      simp [skipWs_not_ws, isJsonWs]
  | .arr (v :: vs), fuel, rest, hwf, hf, _ => by
    cases fuel with
    | zero => exact absurd hf (Nat.not_lt_zero _)
    | succ f =>
      have hwv : jsonWf v = true := by
        simp [jsonWf, itemsWf] at hwf
        exact hwf.1
      have hwvs : itemsWf vs = true := by
        simp [jsonWf, itemsWf] at hwf
        exact hwf.2
      have harg : render (.arr (v :: vs)) ++ rest =
          '[' :: (render v ++ (renderItemsTail vs ++ ']' :: rest)) := by
        simp [render]
      have hlen : (render v).length + (renderItemsTail vs).length + 1 < f := by
        have h2 : (render (Json.arr (v :: vs))).length =
            (render v).length + (renderItemsTail vs).length + 2 := by
          simp only [render, List.length_cons, List.length_append, List.length_nil]
          omega
        omega
      have hkey := rtItems v vs f rest (by simp [itemsWf, hwv, hwvs]) hlen
      obtain ⟨c, t, hrv, hws, hne1, -, -, -⟩ := render_head v hwv
      rw [hrv] at hkey
      simp only [List.cons_append] at hkey
      have hskip := skipWs_not_ws hws (t ++ (renderItemsTail vs ++ ']' :: rest))
      rw [harg, parseVal, hrv]
      simp [skipWs_not_ws, isJsonWs, hskip, hne1, hkey, List.cons_append]
  | .obj [], fuel, rest, _, hf, _ => by
    cases fuel with
    | zero => exact absurd hf (Nat.not_lt_zero _)
    | succ f =>
      have harg : render (.obj []) ++ rest = '{' :: ('}' :: rest) := by
        simp [render]
      rw [harg, parseVal]
      simp [skipWs_not_ws, isJsonWs]
  | .obj ((k, v) :: tl), fuel, rest, hwf, hf, _ => by
    cases fuel with
    | zero => exact absurd hf (Nat.not_lt_zero _)
    | succ f =>
      have hw : membersWf ((k, v) :: tl) = true := by simpa [jsonWf] using hwf
      have harg : render (.obj ((k, v) :: tl)) ++ rest =
          '{' :: ('"' :: (k ++ '"' :: ':' :: (render v ++
            (renderMembersTail tl ++ '}' :: rest)))) := by
        simp [render]
      have hlen : k.length + (render v).length + (renderMembersTail tl).length + 3 < f := by
        have h2 : (render (Json.obj ((k, v) :: tl))).length =
            k.length + (render v).length + (renderMembersTail tl).length + 5 := by
          simp only [render, List.length_cons, List.length_append, List.length_nil]
          omega
        omega
      have hkey := rtFields k v tl f rest hw hlen
      rw [harg, parseVal]
      simp [skipWs_not_ws, isJsonWs, hkey]
  termination_by v _ _ _ _ _ => sizeOf v

theorem rtItems : ∀ (v : Json) (vs : List Json) (fuel : Nat) (rest : List Char),
    itemsWf (v :: vs) = true →
    (render v).length + (renderItemsTail vs).length + 1 < fuel →
    parseItems fuel (render v ++ (renderItemsTail vs ++ ']' :: rest)) =
      some (v :: vs, rest)
  | v, [], fuel, rest, hw, hf => by
    cases fuel with
    | zero => exact absurd hf (Nat.not_lt_zero _)
    | succ f =>
      have hwv : jsonWf v = true := by
        simp [itemsWf] at hw
        exact hw
      have hlen : (render v).length < f := by
        simp only [renderItemsTail, List.length_nil] at hf
        omega
      rw [show renderItemsTail ([] : List Json) ++ ']' :: rest = ']' :: rest from by
        simp [renderItemsTail]]
      have hval := rtVal v f (']' :: rest) hwv hlen (by rfl)
      rw [parseItems]
      simp [skipWs_not_ws, isJsonWs, hval]
  | v, x :: xs, fuel, rest, hw, hf => by
    cases fuel with
    | zero => exact absurd hf (Nat.not_lt_zero _)
    | succ f =>
      have hwv : jsonWf v = true := by
        simp [itemsWf] at hw
        exact hw.1
      have hwtl : itemsWf (x :: xs) = true := by
        simp [itemsWf] at hw
        simp [itemsWf, hw.2.1, hw.2.2]
      have harg : renderItemsTail (x :: xs) ++ ']' :: rest =
          ',' :: (render x ++ (renderItemsTail xs ++ ']' :: rest)) := by
        simp [renderItemsTail]
      have hlv : (render v).length < f := by
        simp only [renderItemsTail, List.length_append, List.length_cons] at hf
        omega
      have hlx : (render x).length + (renderItemsTail xs).length + 1 < f := by
        simp only [renderItemsTail, List.length_append, List.length_cons] at hf
        omega
      have hkey := rtItems x xs f rest hwtl hlx
      have hval := rtVal v f (',' :: (render x ++ (renderItemsTail xs ++ ']' :: rest)))
        hwv hlv (by rfl)
      rw [harg, parseItems]
      simp [skipWs_not_ws, isJsonWs, hval, hkey]
  termination_by v vs _ _ _ _ => sizeOf v + sizeOf vs + 1

theorem rtFields : ∀ (k : List Char) (v : Json) (tl : List (List Char × Json))
      (fuel : Nat) (rest : List Char),
    membersWf ((k, v) :: tl) = true →
    k.length + (render v).length + (renderMembersTail tl).length + 3 < fuel →
    parseFields fuel ('"' :: (k ++ '"' :: ':' :: (render v ++
        (renderMembersTail tl ++ '}' :: rest)))) =
      some ((k, v) :: tl, rest)
  | k, v, [], fuel, rest, hw, hf => by
    cases fuel with
    | zero => exact absurd hf (Nat.not_lt_zero _)
    | succ f =>
      rw [membersWf] at hw
      simp only [Bool.and_eq_true] at hw
      obtain ⟨⟨hk, hwv⟩, -⟩ := hw
      have hlv : (render v).length < f := by
        simp only [renderMembersTail, List.length_nil] at hf
        omega
      rw [show renderMembersTail ([] : List (List Char × Json)) ++ '}' :: rest =
          '}' :: rest from by simp [renderMembersTail]]
      have hstr := parseJStr_safe k (':' :: (render v ++ '}' :: rest)) hk
      have hval := rtVal v f ('}' :: rest) hwv hlv (by rfl)
      rw [parseFields]
      simp [skipWs_not_ws, isJsonWs, hstr, hval]
  | k, v, (k₂, v₂) :: tl₂, fuel, rest, hw, hf => by
    cases fuel with
    | zero => exact absurd hf (Nat.not_lt_zero _)
    | succ f =>
      rw [membersWf] at hw
      simp only [Bool.and_eq_true] at hw
      obtain ⟨⟨hk, hwv⟩, hwtl⟩ := hw
      have hlv : (render v).length < f := by
        simp only [renderMembersTail, List.length_append, List.length_cons] at hf
        omega
      have hlx : k₂.length + (render v₂).length + (renderMembersTail tl₂).length + 3 < f := by
        simp only [renderMembersTail, List.length_append, List.length_cons] at hf
        omega
      have hkey := rtFields k₂ v₂ tl₂ f rest hwtl hlx
      have harg : renderMembersTail ((k₂, v₂) :: tl₂) ++ '}' :: rest =
          ',' :: ('"' :: (k₂ ++ '"' :: ':' :: (render v₂ ++
            (renderMembersTail tl₂ ++ '}' :: rest)))) := by
        simp [renderMembersTail]
      have hstr := parseJStr_safe k
        (':' :: (render v ++ ',' :: ('"' :: (k₂ ++ '"' :: ':' :: (render v₂ ++
          (renderMembersTail tl₂ ++ '}' :: rest)))))) hk
      have hval := rtVal v f
        (',' :: ('"' :: (k₂ ++ '"' :: ':' :: (render v₂ ++
          (renderMembersTail tl₂ ++ '}' :: rest))))) hwv hlv (by rfl)
      rw [harg, parseFields]
      simp [skipWs_not_ws, isJsonWs, hstr, hval, hkey]
  termination_by _ v tl _ _ _ _ => sizeOf v + sizeOf tl + 1

end

/-- `JSON.parse` recovers any well-formed rendered value. -/
theorem parseTop_render (v : Json) (hwf : jsonWf v = true) :
    parseTop (render v) = some v := by
  have h := rtVal v ((render v).length + 1) [] hwf (by omega) (by rfl)
  simp only [List.append_nil] at h
  simp [parseTop, h, skipWs]

/-! ## `stripTrailingCommas` on rendered values -/

theorem stc_nil : stripTrailingCommas [] = [] := rfl

theorem stc_cons_not_comma {c : Char} (h : ¬c = ',') (rest : List Char) :
    stripTrailingCommas (c :: rest) = c :: stripTrailingCommas rest := by
  rw [stc_step_eq]
  simp [h]

theorem stc_comma_brace {rest r : List Char}
    (hd : rest.dropWhile isJsRegexSpace = '}' :: r) :
    stripTrailingCommas (',' :: rest) = '}' :: stripTrailingCommas r := by
  rw [stc_step_eq]
  simp only [reduceIte]
  split
  case _ r' heq =>
    rw [hd] at heq
    injection heq with h1 h2
    rw [h2]
  case _ r' heq =>
    rw [hd] at heq
    injection heq with h1 h2
    exact absurd h1.symm (by decide)
  case _ =>
    rename_i hbr hbk
    exact absurd hd (hbr r)

theorem stc_comma_bracket {rest r : List Char}
    (hd : rest.dropWhile isJsRegexSpace = ']' :: r) :
    stripTrailingCommas (',' :: rest) = ']' :: stripTrailingCommas r := by
  rw [stc_step_eq]
  simp only [reduceIte]
  split
  case _ r' heq =>
    rw [hd] at heq
    injection heq with h1 h2
    exact absurd h1.symm (by decide)
  case _ r' heq =>
    rw [hd] at heq
    injection heq with h1 h2
    rw [h2]
  case _ =>
    rename_i hbr hbk
    exact absurd hd (hbk r)

theorem stc_comma_other {rest : List Char}
    (h : ∀ x r, rest.dropWhile isJsRegexSpace = x :: r → ¬x = '}' ∧ ¬x = ']') :
    stripTrailingCommas (',' :: rest) = ',' :: stripTrailingCommas rest := by
  rw [stc_step_eq]
  simp only [reduceIte]
  split
  case _ r' heq =>
    exact absurd rfl (h '}' r' heq).1
  case _ r' heq =>
    exact absurd rfl (h ']' r' heq).2
  case _ =>
    rfl

/-- `stripTrailingCommas` never rewrites a list without closing
brackets. -/
theorem stc_no_close : ∀ (l : List Char),
    (∀ c ∈ l, ¬c = '}' ∧ ¬c = ']') → stripTrailingCommas l = l
  | [], _ => stc_nil
  | c :: rest, h => by
    have ih := stc_no_close rest (fun x hx => h x (List.mem_cons_of_mem c hx))
    by_cases hc : c = ','
    · subst hc
      rw [stc_comma_other, ih]
      intro x r hd
      have hx : x ∈ rest := by
        have hsub := (List.dropWhile_sublist isJsRegexSpace (l := rest)).subset
        exact hsub (by rw [hd]; exact List.mem_cons_self x r)
      exact h x (List.mem_cons_of_mem _ hx)
    · rw [stc_cons_not_comma hc, ih]

/-- The last character of `l` is neither a comma nor whitespace (so no
trailing-comma match can reach past `l` into what follows it). -/
def endSafe (l : List Char) : Prop :=
  ∀ c, l.getLast? = some c → ¬c = ',' ∧ isJsRegexSpace c = false

theorem endSafe_tail {c : Char} {a : List Char} (h : endSafe (c :: a))
    (hne : a ≠ []) : endSafe a := by
  intro x hx
  apply h
  cases a with
  | nil => exact absurd rfl hne
  | cons y t => rw [List.getLast?_cons_cons]; exact hx

/-- Splitting `stripTrailingCommas` at a safe boundary: when `a` does not
end in a comma or whitespace, no match spans from `a` into `b`. -/
theorem stc_append : ∀ (a b : List Char), endSafe a →
    stripTrailingCommas (a ++ b) = stripTrailingCommas a ++ stripTrailingCommas b
  | [], b, _ => by simp [stc_nil]
  | c :: a', b, hsafe => by
    by_cases hc : c = ','
    · subst hc
      cases hd : a'.dropWhile isJsRegexSpace with
      | nil =>
        exfalso
        rw [List.dropWhile_eq_nil_iff] at hd
        cases a' with
        | nil => exact (hsafe ',' rfl).1 rfl
        | cons y t =>
          have hlast : (y :: t).getLast? = some ((y :: t).getLast (by simp)) := by
            simp [List.getLast?_eq_getLast]
          have hmem : (y :: t).getLast (by simp) ∈ (y :: t) := List.getLast_mem _
          have := (hsafe _ (by rw [List.getLast?_cons_cons]; exact hlast)).2
          rw [hd _ hmem] at this
          exact Bool.noConfusion this
      | cons x r =>
        have hane : a' ≠ [] := by
          intro ha
          rw [ha] at hd
          simp at hd
        have hsafe' : endSafe a' := endSafe_tail hsafe hane
        have happ : (a' ++ b).dropWhile isJsRegexSpace = x :: (r ++ b) := by
          rw [List.dropWhile_append]
          simp [hd]
        have hsplit : a' = a'.takeWhile isJsRegexSpace ++ (x :: r) := by
          conv_lhs => rw [← List.takeWhile_append_dropWhile isJsRegexSpace a']
          rw [hd]
        have hrlen : r.length < a'.length := by
          have hle : (x :: r).length ≤ a'.length := by
            rw [← hd]
            exact dropWhileLenLe _ _
          simp at hle
          omega
        have hrsafe : endSafe r := by
          intro y hy
          apply hsafe'
          rw [hsplit, List.getLast?_append_of_ne_nil _ (by simp)]
          cases r with
          | nil => simp at hy
          | cons z t =>
            rw [List.getLast?_cons_cons]
            exact hy
        by_cases hx1 : x = '}'
        · subst hx1
          rw [List.cons_append, stc_comma_brace happ, stc_comma_brace hd,
            stc_append r b hrsafe, List.cons_append]
        · by_cases hx2 : x = ']'
          · subst hx2
            rw [List.cons_append, stc_comma_bracket happ, stc_comma_bracket hd,
              stc_append r b hrsafe, List.cons_append]
          · rw [List.cons_append,
              stc_comma_other (fun z q hq => by
                rw [happ] at hq
                injection hq with h1 h2
                subst h1
                exact ⟨hx1, hx2⟩),
              stc_comma_other (fun z q hq => by
                rw [hd] at hq
                injection hq with h1 h2
                subst h1
                exact ⟨hx1, hx2⟩),
              stc_append a' b hsafe', List.cons_append]
    · have hane : endSafe a' := by
        cases a' with
        | nil => intro x hx; simp at hx
        | cons y t => exact endSafe_tail hsafe (by simp)
      rw [List.cons_append, stc_cons_not_comma hc, stc_cons_not_comma hc,
        stc_append a' b hane, List.cons_append]
  termination_by a _ _ => a.length
  decreasing_by
    all_goals simp
    all_goals omega

/-- A close-bracket-free prefix is copied verbatim when what follows
starts with a non-whitespace, non-closing character (so no comma match
can complete inside or across the prefix). -/
theorem stc_append_safe : ∀ (a b : List Char),
    (∀ c ∈ a, ¬c = '}' ∧ ¬c = ']') →
    (∀ x r, b = x :: r → isJsRegexSpace x = false ∧ ¬x = '}' ∧ ¬x = ']') →
    stripTrailingCommas (a ++ b) = a ++ stripTrailingCommas b
  | [], b, _, _ => by simp
  | c :: a', b, ha, hb => by
    have ha' : ∀ x ∈ a', ¬x = '}' ∧ ¬x = ']' :=
      fun x hx => ha x (List.mem_cons_of_mem c hx)
    by_cases hc : c = ','
    · subst hc
      rw [List.cons_append, stc_comma_other ?side, stc_append_safe a' b ha' hb,
        List.cons_append]
      case side =>
        intro x r hd
        cases hnil : a'.dropWhile isJsRegexSpace with
        | nil =>
          rw [List.dropWhile_append, hnil] at hd
          simp at hd
          cases b with
          | nil => simp at hd
          | cons y r' =>
            obtain ⟨hy1, hy2, hy3⟩ := hb y r' rfl
            rw [List.dropWhile_cons, hy1] at hd
            simp at hd
            obtain ⟨rfl, -⟩ := hd
            exact ⟨hy2, hy3⟩
        | cons y r' =>
          rw [List.dropWhile_append, hnil] at hd
          simp at hd
          obtain ⟨rfl, -⟩ := hd
          have hy : y ∈ a' := by
            have hsub := (List.dropWhile_sublist isJsRegexSpace (l := a')).subset
            exact hsub (by rw [hnil]; exact List.mem_cons_self y r')
          exact ha' y hy
    · rw [List.cons_append, stc_cons_not_comma hc, stc_append_safe a' b ha' hb,
        List.cons_append]

theorem lastChar_append_singleton (u : List Char) (c : Char) :
    (u ++ [c]).getLast? = some c := by
  rw [List.getLast?_append_of_ne_nil u (by simp)]
  rfl

theorem digits_last {l : List Char} (h : numLexWf l = true) :
    ∃ c, l.getLast? = some c ∧ c.isDigit = true := by
  rw [numLexWf.eq_def] at h
  split at h
  · exact ⟨'0', rfl, by decide⟩
  · rename_i c t hne
    simp only [Bool.and_eq_true] at h
    have hne' : (c :: t) ≠ ([] : List Char) := by simp
    have h1 : (c :: t).getLast? = some ((c :: t).getLast hne') :=
      List.getLast?_eq_getLast _ hne'
    have h2 : (c :: t).getLast hne' ∈ c :: t := List.getLast_mem _
    refine ⟨_, h1, ?_⟩
    rcases List.mem_cons.mp h2 with heq | hmem
    · rw [heq]
      exact h.1.1
    · exact List.all_eq_true.mp h.2 _ hmem
  · simp at h

/-- Every well-formed rendering (with trailing commas) ends in a
character that is neither a comma nor regex whitespace. -/
theorem renderT_last (v : Json) (hwf : jsonWf v = true) :
    ∃ c, (renderT v).getLast? = some c ∧ ¬c = ',' ∧ isJsRegexSpace c = false := by
  cases v with
  | str s =>
    refine ⟨'"', ?_, by decide, by decide⟩
    rw [show renderT (.str s) = ('"' :: s) ++ ['"'] from by simp [renderT]]
    exact lastChar_append_singleton _ _
  | num l =>
    have hwf' : numLexWf l = true := by simpa [jsonWf] using hwf
    obtain ⟨c, hc, hcd⟩ := digits_last hwf'
    obtain ⟨-, -, -, -, -, -, -, -, -, h10, h11⟩ := digitNotStart hcd
    exact ⟨c, by simpa [renderT] using hc, h11, h10⟩
  | bool b =>
    cases b with
    | true => exact ⟨'e', by rfl, by decide, by decide⟩
    | false => exact ⟨'e', by rfl, by decide, by decide⟩
  | null => exact ⟨'l', by rfl, by decide, by decide⟩
  | arr items =>
    cases items with
    | nil => exact ⟨']', by rfl, by decide, by decide⟩
    | cons v vs =>
      refine ⟨']', ?_, by decide, by decide⟩
      rw [show renderT (.arr (v :: vs)) =
          ('[' :: (renderT v ++ (renderTItemsTail vs ++ [',']))) ++ [']'] from by
        simp [renderT]]
      exact lastChar_append_singleton _ _
  | obj members =>
    cases members with
    | nil => exact ⟨'}', by rfl, by decide, by decide⟩
    | cons kv tl =>
      obtain ⟨k, v⟩ := kv
      refine ⟨'}', ?_, by decide, by decide⟩
      rw [show renderT (.obj ((k, v) :: tl)) =
          ('{' :: ('"' :: (k ++ ('"' :: ':' :: (renderT v ++
            (renderTMembersTail tl ++ [','])))))) ++ ['}'] from by
        simp [renderT]]
      exact lastChar_append_singleton _ _

theorem endSafeRenderT (v : Json) (hwf : jsonWf v = true) : endSafe (renderT v) := by
  obtain ⟨c, hc, h1, h2⟩ := renderT_last v hwf
  intro x hx
  rw [hc] at hx
  injection hx with hx
  subst hx
  exact ⟨h1, h2⟩

mutual

/-- Removing the inserted trailing commas recovers the canonical
rendering. -/
theorem stcRenderT : ∀ (v : Json), jsonWf v = true →
    stripTrailingCommas (renderT v) = render v
  | .str s, hwf => by
    have hs : s.all safeChar = true := by simpa [jsonWf] using hwf
    rw [show renderT (.str s) = render (.str s) from rfl]
    apply stc_no_close
    intro c hc
    simp only [render, List.mem_cons, List.mem_append, List.mem_singleton] at hc
    rcases hc with rfl | hc | hc
    · exact ⟨by decide, by decide⟩
    · obtain ⟨-, -, -, -, h5, -, h7⟩ := safeChar_facts (List.all_eq_true.mp hs c hc)
      exact ⟨h5, h7⟩
    · simp at hc
      subst hc
      exact ⟨by decide, by decide⟩
  | .num l, hwf => by
    have hwf' : numLexWf l = true := by simpa [jsonWf] using hwf
    rw [show renderT (.num l) = render (.num l) from rfl]
    apply stc_no_close
    intro c hc
    simp only [render] at hc
    have hcd : c.isDigit = true := by
      rw [numLexWf.eq_def] at hwf'
      split at hwf'
      · simp at hc
        rw [hc]
        decide
      · rename_i c₀ t hne
        simp only [Bool.and_eq_true] at hwf'
        rcases List.mem_cons.mp hc with rfl | hmem
        · exact hwf'.1.1
        · exact List.all_eq_true.mp hwf'.2 _ hmem
      · simp at hwf'
    exact ⟨charNeOfDigit hcd (by decide), charNeOfDigit hcd (by decide)⟩
  | .bool true, _ => by decide
  | .bool false, _ => by decide
  | .null, _ => by decide
  | .arr [], _ => by decide
  | .arr (v :: vs), hwf => by
    have hwv : jsonWf v = true := by
      rw [jsonWf, itemsWf] at hwf
      simp only [Bool.and_eq_true] at hwf
      exact hwf.1
    have hwvs : itemsWf vs = true := by
      rw [jsonWf, itemsWf] at hwf
      simp only [Bool.and_eq_true] at hwf
      exact hwf.2
    rw [show renderT (.arr (v :: vs)) =
        '[' :: (renderT v ++ (renderTItemsTail vs ++ [',', ']'])) from rfl]
    rw [stc_cons_not_comma (by decide), stc_append _ _ (endSafeRenderT v hwv),
      stcRenderT v hwv, stcItemsT vs hwvs]
    rfl
  | .obj [], _ => by decide
  | .obj ((k, v) :: tl), hwf => by
    have hw : membersWf ((k, v) :: tl) = true := by simpa [jsonWf] using hwf
    rw [membersWf] at hw
    simp only [Bool.and_eq_true] at hw
    obtain ⟨⟨hk, hwv⟩, htl⟩ := hw
    rw [show renderT (.obj ((k, v) :: tl)) =
        '{' :: ('"' :: (k ++ ('"' :: ':' :: (renderT v ++
          (renderTMembersTail tl ++ [',', '}']))))) from rfl]
    rw [stc_cons_not_comma (by decide), stc_cons_not_comma (by decide),
      stc_append_safe k _ (fun c hc => by
        obtain ⟨-, -, -, -, h5, -, h7⟩ := safeChar_facts (List.all_eq_true.mp hk c hc)
        exact ⟨h5, h7⟩)
        (fun x r hxr => by
          injection hxr with h1 h2
          subst h1
          exact ⟨by decide, by decide, by decide⟩),
      stc_cons_not_comma (by decide), stc_cons_not_comma (by decide),
      stc_append _ _ (endSafeRenderT v hwv), stcRenderT v hwv, stcMembersT tl htl]
    rfl
  termination_by v _ => sizeOf v

theorem stcItemsT : ∀ (vs : List Json), itemsWf vs = true →
    stripTrailingCommas (renderTItemsTail vs ++ [',', ']']) = renderItemsTail vs ++ [']']
  | [], _ => by decide
  | x :: xs, hw => by
    rw [itemsWf] at hw
    simp only [Bool.and_eq_true] at hw
    obtain ⟨hwx, hwxs⟩ := hw
    obtain ⟨c, t, hrx, -, hne_rb, hne_cb, hcsp, -⟩ := renderT_head x hwx
    rw [show renderTItemsTail (x :: xs) ++ [',', ']'] =
        ',' :: (renderT x ++ (renderTItemsTail xs ++ [',', ']'])) from by
      simp [renderTItemsTail]]
    rw [stc_comma_other (fun y r hd => by
      rw [hrx] at hd
      simp only [List.cons_append] at hd
      rw [List.dropWhile_cons, hcsp] at hd
      simp at hd
      obtain ⟨rfl, -⟩ := hd
      exact ⟨hne_cb, hne_rb⟩)]
    rw [stc_append _ _ (endSafeRenderT x hwx), stcRenderT x hwx, stcItemsT xs hwxs]
    simp [renderItemsTail]
  termination_by vs _ => sizeOf vs + 1

theorem stcMembersT : ∀ (tl : List (List Char × Json)), membersWf tl = true →
    stripTrailingCommas (renderTMembersTail tl ++ [',', '}']) =
      renderMembersTail tl ++ ['}']
  | [], _ => by decide
  | (k, v) :: tl₂, hw => by
    rw [membersWf] at hw
    simp only [Bool.and_eq_true] at hw
    obtain ⟨⟨hk, hwv⟩, htl⟩ := hw
    rw [show renderTMembersTail ((k, v) :: tl₂) ++ [',', '}'] =
        ',' :: ('"' :: (k ++ ('"' :: ':' :: (renderT v ++
          (renderTMembersTail tl₂ ++ [',', '}']))))) from by
      simp [renderTMembersTail]]
    rw [stc_comma_other (fun y r hd => by
      rw [List.dropWhile_cons] at hd
      simp only [show isJsRegexSpace '"' = false from by decide] at hd
      simp at hd
      obtain ⟨rfl, -⟩ := hd
      exact ⟨by decide, by decide⟩)]
    rw [stc_cons_not_comma (by decide),
      stc_append_safe k _ (fun c hc => by
        obtain ⟨-, -, -, -, h5, -, h7⟩ := safeChar_facts (List.all_eq_true.mp hk c hc)
        exact ⟨h5, h7⟩)
        (fun x r hxr => by
          injection hxr with h1 h2
          subst h1
          exact ⟨by decide, by decide, by decide⟩),
      stc_cons_not_comma (by decide), stc_cons_not_comma (by decide),
      stc_append _ _ (endSafeRenderT v hwv), stcRenderT v hwv, stcMembersT tl₂ htl]
    simp [renderMembersTail]
  termination_by tl _ => sizeOf tl + 1

end

/-! ## The control-character escaping pass is a no-op on clean input -/

theorem digit_ge_32 {c : Char} (h : c.isDigit = true) : 32 ≤ c.toNat := by
  simp [Char.isDigit, Char.le_def, UInt32.le_def, BitVec.le_def] at h
  simp [Char.toNat, UInt32.toNat]
  omega

theorem flatMap_escCtl_id : ∀ (l : List Char), (∀ c ∈ l, 32 ≤ c.toNat) →
    l.flatMap escapeCtlChar = l
  | [], _ => rfl
  | c :: t, h => by
    rw [List.flatMap_cons,
      flatMap_escCtl_id t (fun x hx => h x (List.mem_cons_of_mem c hx))]
    have hc := h c (List.mem_cons_self c t)
    have h1 : ¬c = '\n' := fun he => by subst he; exact absurd hc (by decide)
    have h2 : ¬c = '\r' := fun he => by subst he; exact absurd hc (by decide)
    have h3 : ¬c = '\t' := fun he => by subst he; exact absurd hc (by decide)
    rw [escapeCtlChar, if_neg h1, if_neg h2, if_neg h3]
    rfl

theorem escCtlFuel_noop : ∀ (fuel : Nat) (l : List Char), l.length ≤ fuel →
    (∀ c ∈ l, 32 ≤ c.toNat) → escCtlFuel fuel l = l
  | 0, l, _, _ => rfl
  | _ + 1, [], _, _ => rfl
  | fuel + 1, c :: rest, hf, h => by
    have hrest : ∀ x ∈ rest, 32 ≤ x.toNat := fun x hx => h x (List.mem_cons_of_mem c hx)
    have hreclen : rest.length ≤ fuel := by
      simp only [List.length_cons] at hf
      omega
    rw [escCtlFuel]
    by_cases hc : c = ':'
    · rw [if_pos hc]
      cases hd : rest.dropWhile (fun x => x == ' ') with
      | nil =>
        show ':' :: escCtlFuel fuel rest = c :: rest
        rw [escCtlFuel_noop fuel rest hreclen hrest, hc]
      | cons x r₂ =>
        have hsub : ∀ y ∈ x :: r₂, y ∈ rest := fun y hy => by
          rw [← hd] at hy
          exact (List.dropWhile_sublist _).subset hy
        by_cases hx : x = '"'
        · show (if x = '"' then _ else _) = c :: rest
          rw [if_pos hx]
          cases hv : ctlValueSpan r₂ with
          | none =>
            show ':' :: escCtlFuel fuel rest = c :: rest
            rw [escCtlFuel_noop fuel rest hreclen hrest, hc]
          | some p =>
            obtain ⟨region, t⟩ := p
            have happ := ctlValueSpan_append r₂ region t hv
            have hreg : ∀ y ∈ region, 32 ≤ y.toNat := fun y hy =>
              hrest y (hsub y (List.mem_cons_of_mem x (by rw [← happ]; exact List.mem_append_left _ hy)))
            have ht : ∀ y ∈ t, 32 ≤ y.toNat := fun y hy =>
              hrest y (hsub y (List.mem_cons_of_mem x (by rw [← happ]; exact List.mem_append_right _ hy)))
            have htlen : t.length ≤ fuel := by
              have h1 : t.length ≤ r₂.length := by
                rw [← happ]
                simp
              have h2 : (x :: r₂).length ≤ rest.length := by
                rw [← hd]
                exact dropWhileLenLe _ rest
              simp only [List.length_cons] at h2
              omega
            show ':' :: (rest.takeWhile (fun x => x == ' ') ++
                ('"' :: (region.flatMap escapeCtlChar ++ escCtlFuel fuel t))) = c :: rest
            rw [flatMap_escCtl_id region hreg, escCtlFuel_noop fuel t htlen ht, hc, ← hx]
            rw [show x :: (region ++ t) = x :: r₂ from by rw [happ], ← hd]
            rw [List.takeWhile_append_dropWhile]
        · show (if x = '"' then _ else _) = c :: rest
          rw [if_neg hx]
          show ':' :: escCtlFuel fuel rest = c :: rest
          rw [escCtlFuel_noop fuel rest hreclen hrest, hc]
    · rw [if_neg hc, escCtlFuel_noop fuel rest hreclen hrest]
  termination_by fuel _ _ _ => fuel

mutual

/-- Canonical renderings of well-formed values contain no control
characters (every character has code point at least 32). -/
theorem renderNoCtl : ∀ (v : Json), jsonWf v = true → ∀ c ∈ render v, 32 ≤ c.toNat
  | .str s, hwf, c, hc => by
    have hs : s.all safeChar = true := by simpa [jsonWf] using hwf
    simp only [render, List.mem_cons, List.mem_append, List.mem_singleton] at hc
    rcases hc with rfl | hc | hc
    · decide
    · exact (safeChar_facts (List.all_eq_true.mp hs c hc)).1
    · simp at hc
      subst hc
      decide
  | .num l, hwf, c, hc => by
    have hwf' : numLexWf l = true := by simpa [jsonWf] using hwf
    simp only [render] at hc
    apply digit_ge_32
    rw [numLexWf.eq_def] at hwf'
    split at hwf'
    · simp at hc
      rw [hc]
      decide
    · rename_i c₀ t hne
      simp only [Bool.and_eq_true] at hwf'
      rcases List.mem_cons.mp hc with rfl | hmem
      · exact hwf'.1.1
      · exact List.all_eq_true.mp hwf'.2 _ hmem
    · simp at hwf'
  | .bool true, _, c, hc => by
    simp only [render, List.mem_cons] at hc
    rcases hc with rfl | rfl | rfl | rfl | hc
    · decide
    · decide
    · decide
    · decide
    · simp at hc
  | .bool false, _, c, hc => by
    simp only [render, List.mem_cons] at hc
    rcases hc with rfl | rfl | rfl | rfl | rfl | hc
    · decide
    · decide
    · decide
    · decide
    · decide
    · simp at hc
  | .null, _, c, hc => by
    simp only [render, List.mem_cons] at hc
    rcases hc with rfl | rfl | rfl | rfl | hc
    · decide
    · decide
    · decide
    · decide
    · simp at hc
  | .arr [], _, c, hc => by
    simp only [render, List.mem_cons] at hc
    rcases hc with rfl | rfl | hc
    · decide
    · decide
    · simp at hc
  | .arr (v :: vs), hwf, c, hc => by
    have hw : jsonWf v = true ∧ itemsWf vs = true := by
      rw [jsonWf, itemsWf] at hwf
      simpa using hwf
    simp only [render, List.mem_cons, List.mem_append, List.mem_singleton] at hc
    rcases hc with rfl | hc | hc | hc
    · decide
    · exact renderNoCtl v hw.1 c hc
    · exact renderItemsNoCtl vs hw.2 c hc
    · simp at hc
      subst hc
      decide
  | .obj [], _, c, hc => by
    simp only [render, List.mem_cons] at hc
    rcases hc with rfl | rfl | hc
    · decide
    · decide
    · simp at hc
  | .obj ((k, v) :: tl), hwf, c, hc => by
    have hw : membersWf ((k, v) :: tl) = true := by simpa [jsonWf] using hwf
    rw [membersWf] at hw
    simp only [Bool.and_eq_true] at hw
    obtain ⟨⟨hk, hwv⟩, htl⟩ := hw
    simp only [render, List.mem_cons, List.mem_append, List.mem_singleton] at hc
    rcases hc with rfl | rfl | hc | rfl | rfl | hc | hc | hc
    · decide
    · decide
    · exact (safeChar_facts (List.all_eq_true.mp hk c hc)).1
    · decide
    · decide
    · exact renderNoCtl v hwv c hc
    · exact renderMembersNoCtl tl htl c hc
    · simp at hc
      subst hc
      decide
  termination_by v _ _ _ => sizeOf v

theorem renderItemsNoCtl : ∀ (vs : List Json), itemsWf vs = true →
    ∀ c ∈ renderItemsTail vs, 32 ≤ c.toNat
  | [], _, c, hc => by simp [renderItemsTail] at hc
  | v :: vs, hw, c, hc => by
    rw [itemsWf] at hw
    simp only [Bool.and_eq_true] at hw
    simp only [renderItemsTail, List.mem_cons, List.mem_append] at hc
    rcases hc with rfl | hc | hc
    · decide
    · exact renderNoCtl v hw.1 c hc
    · exact renderItemsNoCtl vs hw.2 c hc
  termination_by vs _ _ _ => sizeOf vs + 1

theorem renderMembersNoCtl : ∀ (tl : List (List Char × Json)), membersWf tl = true →
    ∀ c ∈ renderMembersTail tl, 32 ≤ c.toNat
  | [], _, c, hc => by simp [renderMembersTail] at hc
  | (k, v) :: tl, hw, c, hc => by
    rw [membersWf] at hw
    simp only [Bool.and_eq_true] at hw
    obtain ⟨⟨hk, hwv⟩, htl⟩ := hw
    simp only [renderMembersTail, List.mem_cons, List.mem_append] at hc
    rcases hc with rfl | rfl | hc | rfl | rfl | hc | hc
    · decide
    · decide
    · exact (safeChar_facts (List.all_eq_true.mp hk c hc)).1
    · decide
    · decide
    · exact renderNoCtl v hwv c hc
    · exact renderMembersNoCtl tl htl c hc
  termination_by tl _ _ _ => sizeOf tl + 1

end

/-! ## Locating the braces of the embedded object -/

theorem renderT_obj_split : ∀ (ms : List (List Char × Json)),
    ∃ mid, renderT (.obj ms) = '{' :: (mid ++ ['}'])
  | [] => ⟨[], rfl⟩
  | (k, v) :: tl =>
    ⟨'"' :: (k ++ ('"' :: ':' :: (renderT v ++ (renderTMembersTail tl ++ [','])))), by
      simp [renderT]⟩

theorem firstIdxOf_prefix (p₁ z : List Char) (h : '{' ∉ p₁) :
    firstIdxOf '{' (p₁ ++ '{' :: z) = some p₁.length := by
  have h1 : List.findIdx? (fun x => x == '{') p₁ = none :=
    List.findIdx?_eq_none_iff.mpr (fun x hx => by
      simp only [beq_eq_false_iff_ne]
      exact fun he => h (he ▸ hx))
  rw [firstIdxOf, List.findIdx?_append, h1]
  simp [List.findIdx?_cons]

theorem lastIdxOf_suffix (y p₂ : List Char) (h : '}' ∉ p₂) :
    lastIdxOf '}' (y ++ '}' :: p₂) = some y.length := by
  have h1 : List.findIdx? (fun x => x == '}') p₂.reverse = none :=
    List.findIdx?_eq_none_iff.mpr (fun x hx => by
      simp only [beq_eq_false_iff_ne]
      exact fun he => h (he ▸ List.mem_reverse.mp hx))
  rw [lastIdxOf, show (y ++ '}' :: p₂).reverse = p₂.reverse ++ '}' :: y.reverse from by simp,
    List.findIdx?_append, h1]
  simp [List.findIdx?_cons]

/-- Unfolding of the extraction pipeline once both braces are found. -/
theorem step2ParseScript_eq (raw : List Char) (s e : Nat)
    (hf : firstIdxOf '{' raw = some s) (hl : lastIdxOf '}' raw = some e) :
    step2ParseScript raw =
      (match parseTop (escapeCtlInStrings (stripTrailingCommas ((raw.take (e + 1)).drop s))) with
       | some j => .ok j
       | none =>
         (match parseTop (stripCtlChars (escapeCtlInStrings
             (stripTrailingCommas ((raw.take (e + 1)).drop s)))) with
          | some j => .ok j
          | none => .error "SyntaxError: JSON.parse")) := by
  rw [step2ParseScript, hf, hl]

/-- C7 (amended): a text-generation response made of a script object whose
strings are plain prose over the safe character set, rendered with
trailing commas before the closing brackets of its non-empty composites,
wrapped in prose with no brace of the matching kind, is extracted,
repaired and parsed successfully by step 2. -/
theorem step2_extracts_wrapped_script (ms : List (List Char × Json)) (p₁ p₂ : List Char)
    (hw : jsonWf (.obj ms) = true) (h₁ : '{' ∉ p₁) (h₂ : '}' ∉ p₂) :
    step2ParseScript (p₁ ++ (renderT (.obj ms) ++ p₂)) = .ok (.obj ms) := by
  obtain ⟨mid, hmid⟩ := renderT_obj_split ms
  have hraw : p₁ ++ (renderT (.obj ms) ++ p₂) = (p₁ ++ '{' :: mid) ++ '}' :: p₂ := by
    rw [hmid]
    simp
  have hfirst : firstIdxOf '{' (p₁ ++ (renderT (.obj ms) ++ p₂)) = some p₁.length := by
    rw [show p₁ ++ (renderT (.obj ms) ++ p₂) = p₁ ++ '{' :: ((mid ++ ['}']) ++ p₂) from by
      rw [hmid]; simp]
    exact firstIdxOf_prefix p₁ _ h₁
  have hlast : lastIdxOf '}' (p₁ ++ (renderT (.obj ms) ++ p₂)) =
      some (p₁ ++ '{' :: mid).length := by
    rw [hraw]
    exact lastIdxOf_suffix _ p₂ h₂
  have hslice : (((p₁ ++ (renderT (.obj ms) ++ p₂)).take
      ((p₁ ++ '{' :: mid).length + 1)).drop p₁.length) = renderT (.obj ms) := by
    rw [hraw, List.take_append 1, show List.take 1 ('}' :: p₂) = ['}'] from by simp,
      show (p₁ ++ '{' :: mid) ++ ['}'] = p₁ ++ ('{' :: (mid ++ ['}'])) from by simp,
      List.drop_left, ← hmid]
  rw [step2ParseScript_eq _ p₁.length (p₁ ++ '{' :: mid).length hfirst hlast, hslice,
    stcRenderT _ hw,
    show escapeCtlInStrings (render (.obj ms)) = render (.obj ms) from
      escCtlFuel_noop _ _ le_rfl (renderNoCtl _ hw),
    parseTop_render _ hw]

/-- C7 witness. -/
theorem step2_extracts_wrapped_script_witness :
    step2ParseScript ("Sure: ".toList ++
        (renderT (.obj [("mainCharacterDescription".toList, .str "a dog".toList)]) ++
          " Enjoy".toList)) =
      .ok (.obj [("mainCharacterDescription".toList, .str "a dog".toList)]) :=
  step2_extracts_wrapped_script
    [("mainCharacterDescription".toList, .str "a dog".toList)] _ _
    (by decide) (by decide) (by decide)

/-- A syntactically valid script object (its canonical rendering parses
back to it). -/
def c7Script : Json := .obj [("a".toList, .num ['1'])]

/-- Prose before the object that itself mentions a brace. -/
def c7ProseA : List Char := "answer \x7b ".toList

def c7ProseB : List Char := " ok".toList

/-- The wrapped response: prose, then the object rendered with a trailing
comma, then prose. -/
def c7BadRaw : List Char := c7ProseA ++ (renderT c7Script ++ c7ProseB)

/-- C7 counterexample: a valid JSON script object wrapped in surrounding
prose and containing a trailing comma before the closing bracket for
which the extraction/repair sequence does NOT produce a parsed script:
the prose contains a `\x7b`, the substring from the first `\x7b` to the
last `\x7d` starts inside the prose, and both parse attempts fail. -/
theorem step2_prose_brace_breaks_extraction :
    jsonWf c7Script = true ∧
    c7BadRaw = c7ProseA ++ (renderT c7Script ++ c7ProseB) ∧
    parseTop (render c7Script) = some c7Script ∧
    step2ParseScript c7BadRaw = .error "SyntaxError: JSON.parse" :=
  ⟨by decide, rfl, by rfl, by rfl⟩

end OneShot
